import Mathlib

/-!
Verification development for the `named_tuples` repository.

The repository has two independent parts:
* `company.py`: a synthetic stock-record generator (`generate_companies`) and a
  weighted-average reducer (`calculate_stock_market_value`);
* `named_tuple_profile.py` / `dictionary_profile.py`: four statistics reducers
  over personal profiles, duplicated over two container shapes (fixed-schema
  record vs. string-keyed mapping).

Python floats are modelled as exact rationals (`ℚ`), Python `round(x, n)` as
round-half-to-even on the scaled rational (the documented semantics of the
builtin), Python `random.random()` as an ambient stream of rationals in
`[0, 1)`, and the Faker library as an oracle that is a deterministic function
of the Faker seed and the number of Faker calls made since seeding (which is
exactly what `Faker.seed` guarantees).  Fallible Python code is embedded in
`Except String`, carrying the exception message.
-/

namespace NamedTuples

/-- Python `round` to an integer: round half to even (banker's rounding),
the documented behaviour of the builtin `round`. -/
def bround (q : ℚ) : ℤ :=
  if q - ⌊q⌋ < 1/2 then ⌊q⌋
  else if 1/2 < q - ⌊q⌋ then ⌊q⌋ + 1
  else if ⌊q⌋ % 2 = 0 then ⌊q⌋ else ⌊q⌋ + 1

theorem bround_le_add_half (q : ℚ) : (bround q : ℚ) ≤ q + 1/2 := by
  unfold bround
  have h1 : (⌊q⌋ : ℚ) ≤ q := Int.floor_le q
  have h2 : q < ⌊q⌋ + 1 := Int.lt_floor_add_one q
  split
  · linarith
  · split
    · push_cast; linarith
    · split
      · linarith
      · push_cast; linarith

theorem sub_half_le_bround (q : ℚ) : q - 1/2 ≤ (bround q : ℚ) := by
  unfold bround
  have h1 : (⌊q⌋ : ℚ) ≤ q := Int.floor_le q
  have h2 : q < ⌊q⌋ + 1 := Int.lt_floor_add_one q
  split
  · linarith
  · split
    · push_cast; linarith
    · split
      · linarith
      · push_cast; linarith

theorem abs_bround_sub (q : ℚ) : |(bround q : ℚ) - q| ≤ 1/2 := by
  have h1 := bround_le_add_half q
  have h2 := sub_half_le_bround q
  rw [abs_sub_le_iff]
  constructor <;> linarith

theorem bround_le_of_le {q : ℚ} {z : ℤ} (h : q ≤ z) : bround q ≤ z := by
  unfold bround
  have h1 : (⌊q⌋ : ℚ) ≤ q := Int.floor_le q
  have hf : ⌊q⌋ ≤ z := Int.le_of_lt_add_one (lt_of_le_of_lt (Int.floor_le_floor h) (by simp [Int.lt_add_one_iff]))
  split
  · exact hf
  · rename_i hcond
    have hq : (⌊q⌋ : ℚ) < q := by
      by_contra hc
      push_neg at hc
      have : q = ⌊q⌋ := le_antisymm hc h1
      rw [this] at hcond
      simp at hcond
    have : ⌊q⌋ < z := by
      have : (⌊q⌋ : ℚ) < (z : ℚ) := lt_of_lt_of_le hq h
      exact_mod_cast this
    have hz : ⌊q⌋ + 1 ≤ z := this
    split
    · exact hz
    · split
      · exact hf
      · exact hz

theorem le_bround_of_le {z : ℤ} {q : ℚ} (h : (z : ℚ) ≤ q) : z ≤ bround q := by
  unfold bround
  have hz : z ≤ ⌊q⌋ := Int.le_floor.mpr h
  split
  · exact hz
  · split
    · omega
    · split
      · exact hz
      · omega

theorem bround_intCast (z : ℤ) : bround (z : ℚ) = z :=
  le_antisymm (bround_le_of_le le_rfl) (le_bround_of_le le_rfl)

/-- Python `round(q, 2)`. -/
def pyRound2 (q : ℚ) : ℚ := (bround (q * 100) : ℚ) / 100

/-- Python `round(q, 3)`. -/
def pyRound3 (q : ℚ) : ℚ := (bround (q * 1000) : ℚ) / 1000

theorem pyRound2_isInt100 (q : ℚ) : ∃ k : ℤ, pyRound2 q = (k : ℚ) / 100 :=
  ⟨bround (q * 100), rfl⟩

theorem abs_pyRound2_sub (q : ℚ) : |pyRound2 q - q| ≤ 1/200 := by
  unfold pyRound2
  have h := abs_bround_sub (q * 100)
  rw [show (bround (q * 100) : ℚ) / 100 - q = ((bround (q * 100) : ℚ) - q * 100) / 100 by ring,
    abs_div, show |(100 : ℚ)| = 100 by norm_num,
    div_le_iff₀ (by norm_num : (0:ℚ) < 100)]
  linarith

theorem abs_pyRound3_sub (q : ℚ) : |pyRound3 q - q| ≤ 1/2000 := by
  unfold pyRound3
  have h := abs_bround_sub (q * 1000)
  rw [show (bround (q * 1000) : ℚ) / 1000 - q = ((bround (q * 1000) : ℚ) - q * 1000) / 1000 by ring,
    abs_div, show |(1000 : ℚ)| = 1000 by norm_num,
    div_le_iff₀ (by norm_num : (0:ℚ) < 1000)]
  linarith

/-- If `k/100 ≤ q` for an integer `k` then `k/100 ≤ round(q, 2)`:
two-decimal grid points below `q` stay below the rounded value. -/
theorem grid_le_pyRound2 {k : ℤ} {q : ℚ} (h : (k : ℚ) / 100 ≤ q) :
    (k : ℚ) / 100 ≤ pyRound2 q := by
  unfold pyRound2
  have : (k : ℚ) ≤ q * 100 := by
    rw [div_le_iff₀ (by norm_num : (0:ℚ) < 100)] at h
    linarith
  have hk := le_bround_of_le this
  have : (k : ℚ) ≤ (bround (q * 100) : ℚ) := by exact_mod_cast hk
  linarith

theorem pyRound2_le_grid {k : ℤ} {q : ℚ} (h : q ≤ (k : ℚ) / 100) :
    pyRound2 q ≤ (k : ℚ) / 100 := by
  unfold pyRound2
  have : q * 100 ≤ (k : ℚ) := by
    rw [le_div_iff₀ (by norm_num : (0:ℚ) < 100)] at h
    linarith
  have hk := bround_le_of_le this
  have : (bround (q * 100) : ℚ) ≤ (k : ℚ) := by exact_mod_cast hk
  linarith

theorem pyRound3_nonneg {q : ℚ} (h : 0 ≤ q) : 0 ≤ pyRound3 q := by
  unfold pyRound3
  have : (0 : ℤ) ≤ bround (q * 1000) := le_bround_of_le (by push_cast; linarith)
  positivity

/-- Python division: raises `ZeroDivisionError` on a zero denominator. -/
def pyDiv (a b : ℚ) : Except String ℚ :=
  if b = 0 then Except.error "ZeroDivisionError: division by zero" else Except.ok (a / b)

theorem pyDiv_ok {a b : ℚ} (h : b ≠ 0) : pyDiv a b = Except.ok (a / b) := by
  simp [pyDiv, h]

end NamedTuples

deriving instance DecidableEq for Except

namespace NamedTuples

/-! ## Profile data model

`datetime.date` is modelled by its (year, month, day) components; Python
compares dates lexicographically.  A profile record carries the three fields
used by the statistics reducers (`blood_group`, `current_location`,
`birthdate`); the auxiliary identity fields of `fake.profile()` are irrelevant
to every claim.  The birthdate is `Option Date` because the source explicitly
checks `oldest_person_birthdate is None`. -/

structure Date where
  year : ℤ
  month : ℤ
  day : ℤ
deriving DecidableEq, Repr

/-- Python `date < date`: lexicographic on (year, month, day). -/
def Date.lt (a b : Date) : Bool :=
  if a.year ≠ b.year then a.year < b.year
  else if a.month ≠ b.month then a.month < b.month
  else a.day < b.day

/-- The fixed-schema record variant (`collections.namedtuple` `Profile`). -/
structure Profile where
  blood_group : String
  current_location : ℚ × ℚ
  birthdate : Option Date
deriving DecidableEq, Repr

/-- A value stored in a profile dictionary. -/
inductive PVal where
  | s (v : String)
  | loc (v : ℚ × ℚ)
  | d (v : Option Date)
deriving DecidableEq, Repr

/-- The dynamically-keyed mapping variant: a Python `dict` as an
insertion-ordered association list with unique keys. -/
def DictProfile := List (String × PVal)

instance : DecidableEq DictProfile := by
  unfold DictProfile
  infer_instance

/-- The mapping holding the same logical record as a given fixed-schema
profile (the auxiliary `fake.profile()` keys carry no information used by
any reducer and are omitted). -/
def dictOf (p : Profile) : DictProfile :=
  [("blood_group", PVal.s p.blood_group),
   ("current_location", PVal.loc p.current_location),
   ("birthdate", PVal.d p.birthdate)]

/-- Python `d[k]` on a dictionary: `KeyError` when the key is missing. -/
def pyGetItem (d : DictProfile) (k : String) : Except String PVal :=
  match d.find? (fun kv => kv.1 = k) with
  | some kv => Except.ok kv.2
  | none => Except.error ("KeyError: " ++ k)

/-- Python `<` on values found in profile dictionaries: dates compare
lexicographically, `None` does not compare with anything (`TypeError`),
strings compare lexicographically, tuples lexicographically; values of
different shapes do not compare. -/
def pvalLt (a b : PVal) : Except String Bool :=
  match a, b with
  | PVal.d (some x), PVal.d (some y) => Except.ok (Date.lt x y)
  | PVal.d _, PVal.d _ => Except.error "TypeError: cannot compare NoneType and date"
  | PVal.s x, PVal.s y => Except.ok (decide (x < y))
  | PVal.loc x, PVal.loc y =>
      Except.ok (if x.1 ≠ y.1 then decide (x.1 < y.1) else decide (x.2 < y.2))
  | _, _ => Except.error "TypeError: unsupported comparison between mismatched types"

/-- Python `<` on optional dates, as used by the fixed-schema reducers via
`min(profiles, key=lambda x: x.birthdate)`. -/
def optDateLt (a b : Option Date) : Except String Bool :=
  pvalLt (PVal.d a) (PVal.d b)

/-! ## Python `min(iterable, key=...)` and `max(dict, key=dict.get)`

`min` keeps the first element, then replaces the current best exactly when a
later element's key compares strictly below the best key (so the first
minimum wins on ties).  The key function itself may raise (a dict lookup),
and the comparison may raise (`None` vs. a date), so both are monadic. -/

def pyMinByGo (key : α → Except String β) (lt : β → β → Except String Bool)
    (best : α) (bestK : β) : List α → Except String α
  | [] => Except.ok best
  | y :: ys => do
      let yk ← key y
      let isLt ← lt yk bestK
      if isLt then pyMinByGo key lt y yk ys else pyMinByGo key lt best bestK ys

def pyMinBy (key : α → Except String β) (lt : β → β → Except String Bool) :
    List α → Except String α
  | [] => Except.error "ValueError: min arg is an empty sequence"
  | x :: xs => do
      let xk ← key x
      pyMinByGo key lt x xk xs

/-! Python `dict` with counter values, as built by the blood-group reducers:
`d[k] = d.get(k, 0) + 1`.  Assignment to a present key updates in place
(keeping insertion order); assignment to an absent key appends. -/

def dictGet [DecidableEq α] (d : List (α × ℕ)) (k : α) : ℕ :=
  match d.find? (fun kv => kv.1 = k) with
  | some kv => kv.2
  | none => 0

def dictSet [DecidableEq α] (d : List (α × ℕ)) (k : α) (v : ℕ) : List (α × ℕ) :=
  match d with
  | [] => [(k, v)]
  | kv :: rest => if kv.1 = k then (k, v) :: rest else kv :: dictSet rest k v

/-- The counting loop `for p in ...: d[k p] = d.get(k p, 0) + 1`. -/
def buildCounts [DecidableEq α] (keys : List α) : List (α × ℕ) :=
  keys.foldl (fun d k => dictSet d k (dictGet d k + 1)) []

/-- Python `max(d, key=d.get)` iterates over the keys of `d` in insertion order and
keeps the first key of maximal value (replacing only on strictly greater). -/
def pyMaxByGetGo [DecidableEq α] (d : List (α × ℕ)) (best : α) : List α → α
  | [] => best
  | k :: ks => if dictGet d k > dictGet d best then pyMaxByGetGo d k ks
               else pyMaxByGetGo d best ks

def pyMaxByGet [DecidableEq α] (d : List (α × ℕ)) : Option α :=
  match d.map Prod.fst with
  | [] => none
  | k :: ks => some (pyMaxByGetGo d k ks)

/-! ## The profile statistics reducers

Error messages are the exact `ValueError` strings raised by the source; the
"error kinds" of the spec correspond one-to-one to these messages. -/

def emptyMsg : String := "Profiles list is empty"

def birthdateMsg : String := "Oldest person birthdate is None or in the future"

def agesMsg : String := "Ages list is empty or sum of ages is less than or equal to 0"

/-- The Python list comprehension / element loop over fallible element
operations: evaluates left to right, propagating the first exception. -/
def mapE (f : α → Except String β) : List α → Except String (List β)
  | [] => Except.ok []
  | x :: xs => do
      let y ← f x
      let ys ← mapE f xs
      return y :: ys

/-- NumPy `np.mean(np.array(l), axis=0)` over a list of coordinate pairs: the
componentwise arithmetic mean.  (NumPy yields NaN on an empty array; both
callers guard non-emptiness, and the empty case is marked by an error.)
The trailing `Decimal(str(x))` conversion of the source is the identity in
this exact-rational model. -/
def np_mean_axis0 (l : List (ℚ × ℚ)) : Except String (ℚ × ℚ) := do
  let lat ← pyDiv (l.map Prod.fst).sum l.length
  let long ← pyDiv (l.map Prod.snd).sum l.length
  return (lat, long)

/-- Embeds `named_tuple_profile.get_largest_blood_type`.  The Python function wraps
the selected blood group in a singleton set (`{max(...)}`); the model returns
the selected element itself. -/
def get_largest_blood_type (profiles : List Profile) : Except String String :=
  if profiles = [] then Except.error emptyMsg
  else
    match pyMaxByGet (buildCounts (profiles.map Profile.blood_group)) with
    | some v => Except.ok v
    | none => Except.error "ValueError: max arg is an empty sequence"

/-- Embeds `named_tuple_profile.get_mean_current_location`. -/
def get_mean_current_location (profiles : List Profile) : Except String (ℚ × ℚ) :=
  if profiles = [] then Except.error emptyMsg
  else np_mean_axis0 (profiles.map Profile.current_location)

/-- Embeds `named_tuple_profile.get_oldest_person_age`; `current_year` stands for
the ambient `datetime.datetime.now().year`. -/
def get_oldest_person_age (current_year : ℤ) (profiles : List Profile) :
    Except String ℤ :=
  if profiles = [] then Except.error emptyMsg
  else do
    let m ← pyMinBy (fun x => Except.ok x.birthdate) optDateLt profiles
    match m.birthdate with
    | none => Except.error birthdateMsg
    | some d => if d.year > current_year then Except.error birthdateMsg
                else Except.ok (current_year - d.year)

/-- The age of one fixed-schema profile, `now().year - x.birthdate.year`;
`AttributeError` when the birthdate is `None`. -/
def ageOf (current_year : ℤ) (x : Profile) : Except String ℤ :=
  match x.birthdate with
  | some d => Except.ok (current_year - d.year)
  | none => Except.error "AttributeError: NoneType object has no attribute year"

/-- Embeds `named_tuple_profile.get_average_age`. -/
def get_average_age (current_year : ℤ) (profiles : List Profile) :
    Except String ℚ :=
  if profiles = [] then Except.error emptyMsg
  else do
    let ages ← mapE (ageOf current_year) profiles
    if ages.length = 0 ∨ ages.sum ≤ 0 then Except.error agesMsg
    else pyDiv (ages.sum : ℚ) (ages.length : ℚ)

/-- Embeds `dictionary_profile.get_largest_blood_type_dict`: identical to the
fixed-schema variant except that the blood group is fetched by key, which can
raise `KeyError`, and the counting dictionary is keyed by the fetched values. -/
def get_largest_blood_type_dict (profiles : List DictProfile) :
    Except String PVal :=
  if profiles = [] then Except.error emptyMsg
  else do
    let groups ← mapE (fun p => pyGetItem p "blood_group") profiles
    match pyMaxByGet (buildCounts groups) with
    | some v => Except.ok v
    | none => Except.error "ValueError: max arg is an empty sequence"

/-- The coordinate pair stored under `current_location`; NumPy turns a
non-pair value into a differently-shaped array, modelled as an error. -/
def pyLocOf (v : PVal) : Except String (ℚ × ℚ) :=
  match v with
  | PVal.loc p => Except.ok p
  | _ => Except.error "TypeError: current_location is not a coordinate pair"

/-- Embeds `dictionary_profile.get_mean_current_location_dict`. -/
def get_mean_current_location_dict (profiles : List DictProfile) :
    Except String (ℚ × ℚ) :=
  if profiles = [] then Except.error emptyMsg
  else do
    let vals ← mapE (fun p => pyGetItem p "current_location") profiles
    let locs ← mapE pyLocOf vals
    np_mean_axis0 locs

/-- Python `x.year` on a dictionary value: only a date has a `year` attribute;
`None.year` raises the same `AttributeError` as in the fixed-schema variant,
and other value shapes raise their own `AttributeError`. -/
def pyYearOf (v : PVal) : Except String ℤ :=
  match v with
  | PVal.d (some d) => Except.ok d.year
  | PVal.d none => Except.error "AttributeError: NoneType object has no attribute year"
  | _ => Except.error "AttributeError: object has no attribute year"

/-- Embeds `dictionary_profile.get_oldest_person_age_dict`. -/
def get_oldest_person_age_dict (current_year : ℤ) (profiles : List DictProfile) :
    Except String ℤ :=
  if profiles = [] then Except.error emptyMsg
  else do
    let m ← pyMinBy (fun x => pyGetItem x "birthdate") pvalLt profiles
    let bd ← pyGetItem m "birthdate"
    if bd = PVal.d none then Except.error birthdateMsg
    else do
      let y ← pyYearOf bd
      if y > current_year then Except.error birthdateMsg
      else Except.ok (current_year - y)

/-- The age of one dictionary profile, `now().year - x["birthdate"].year`. -/
def ageOfDict (current_year : ℤ) (x : DictProfile) : Except String ℤ := do
  let bd ← pyGetItem x "birthdate"
  let y ← pyYearOf bd
  return current_year - y

/-- Embeds `dictionary_profile.get_average_age_dict`. -/
def get_average_age_dict (current_year : ℤ) (profiles : List DictProfile) :
    Except String ℚ :=
  if profiles = [] then Except.error emptyMsg
  else do
    let ages ← mapE (ageOfDict current_year) profiles
    if ages.length = 0 ∨ ages.sum ≤ 0 then Except.error agesMsg
    else pyDiv (ages.sum : ℚ) (ages.length : ℚ)

/-! ## The company generator (`company.py`)

The global `random` module is modelled as a stream of unit draws
`vals : ℕ → ℚ` (each the result of one `random.random()` call, hence in
`[0, 1)`) together with a cursor; `random.uniform(a, b)` is
`a + (b - a) * random.random()`, exactly as in CPython.  Crucially,
`generate_companies` seeds only Faker (`Faker.seed(random_seed)`), never the
global `random` module, so the stream and its cursor are ambient state that
persists across calls.

The Faker library is an oracle: after `Faker.seed(s)`, the n-th Faker call
returns a value determined by `s` and `n` alone, so the oracle is a pair of
functions of the seed and the call counter. -/

structure RandState where
  vals : ℕ → ℚ
  pos : ℕ

/-- Python `random.random()`. -/
def pyRandom (g : RandState) : ℚ × RandState :=
  (g.vals g.pos, ⟨g.vals, g.pos + 1⟩)

/-- Python `random.uniform(a, b) = a + (b - a) * random.random()`. -/
def pyUniform (a b : ℚ) (g : RandState) : ℚ × RandState :=
  let (r, g') := pyRandom g
  (a + (b - a) * r, g')

/-- A stream of possible outputs of `random.random()`. -/
def ValidStream (vals : ℕ → ℚ) : Prop :=
  ∀ i, 0 ≤ vals i ∧ vals i < 1

structure FakerOracle where
  company : ℕ → ℕ → String
  random_letter : ℕ → ℕ → Char

/-- One record of the `Stock` namedtuple.  (`open` is a Lean keyword, so the
price fields carry the names of the corresponding source-local variables
`open_price`, `high_price`, `low_price`, `close_price`.) -/
structure Stock where
  name : String
  symbol : String
  open_price : ℚ
  high_price : ℚ
  low_price : ℚ
  close_price : ℚ
  weight : ℚ
deriving DecidableEq, Repr

/-- Python `sub in s` (substring containment, for non-empty `sub`). -/
def pyIn (sub s : String) : Bool := (s.splitOn sub).length ≥ 2

/-- Python `s[i]` on a string; the source never guards the index, and Python
would raise `IndexError` out of range — the model totalises with `'?'`
(no claim depends on that branch). -/
def pyCharAt (s : String) (i : ℕ) : Char := s.data.getD i '?'

/-- Python `lst[i]` on the result of `str.split`; `IndexError` out of range,
totalised with `""`. -/
def pyStrIdx (l : List String) (i : ℕ) : String := l.getD i ""

def pyUpperStr (s : String) : String := String.mk (s.data.map Char.toUpper)

/-- The ticker heuristic of `generate_companies` (lines 38-48 of
`company.py`): `letter` is the `fake.random_letter()` draw, consumed only in
the comma/hyphen branches. -/
def derive_ticker (company_name : String) (letter : Char) : String :=
  let company_ticker :=
    if pyIn "," company_name then
      String.mk [(pyCharAt company_name 0).toUpper,
                 (pyCharAt (pyStrIdx (company_name.splitOn ",") 1) 1).toUpper,
                 letter.toUpper]
    else if pyIn "-" company_name then
      String.mk [(pyCharAt company_name 0).toUpper,
                 (pyCharAt (pyStrIdx (company_name.splitOn "-") 1) 0).toUpper,
                 letter.toUpper]
    else
      pyUpperStr (company_name.take 3)
  if pyIn "and" company_name || pyIn "AND" company_name then
    (company_ticker.take 2).append
      (String.mk [(pyCharAt (pyStrIdx (company_name.splitOn "and") 1) 1).toUpper])
  else company_ticker

/-- Whether the ticker derivation consumes the `fake.random_letter()` draw
(exactly the comma and hyphen branches). -/
def tickerConsumesLetter (company_name : String) : Bool :=
  pyIn "," company_name || pyIn "-" company_name

/-- The body of the generation loop: makes `n` unnormalized records, threading
the Faker call counter `fpos`, the running `total_weight` `tw`, and the global
random state.  `cb` is the batch's `circuit_breakers` draw. -/
def genLoop (fo : FakerOracle) (seed : ℕ) (cb : ℚ) :
    ℕ → ℕ → ℚ → RandState → List Stock × ℚ × RandState
  | 0, _, tw, g => ([], tw, g)
  | n + 1, fpos, tw, g =>
    let company_name := fo.company seed fpos
    let letter := fo.random_letter seed (fpos + 1)
    let fpos2 := if tickerConsumesLetter company_name then fpos + 2 else fpos + 1
    let company_ticker := derive_ticker company_name letter
    let (openr, g1) := pyUniform 100 1000 g
    let open_price := pyRound2 openr
    let (highr, g2) := pyUniform open_price (open_price + cb * open_price) g1
    let high_price := pyRound2 highr
    let (lowr, g3) := pyUniform (open_price - cb * open_price) open_price g2
    let low_price := pyRound2 lowr
    let (closer, g4) := pyUniform low_price high_price g3
    let close_price := pyRound2 closer
    let (wr, g5) := pyUniform (1/10) 1 g4
    let weight := pyRound2 wr
    let (rest, twf, gf) := genLoop fo seed cb n fpos2 (tw + weight) g5
    (⟨company_name, company_ticker, open_price, high_price, low_price,
      close_price, weight⟩ :: rest, twf, gf)

/-- The second loop of `generate_companies`: rewrite every weight as
`round(weight / total_weight, 3)`.  Dividing is Python division, so a zero
total raises `ZeroDivisionError` — but only if a record exists at all. -/
def normalizeWeights (companies : List Stock) (total_weight : ℚ) :
    Except String (List Stock) :=
  mapE (fun c => do
    let nw ← pyDiv c.weight total_weight
    return { c with weight := pyRound3 nw }) companies

/-- Embeds `company.generate_companies`.  Returns the record list together with the
advanced global random state. -/
def generate_companies (fo : FakerOracle) (num_companies : ℕ)
    (random_seed : ℕ) (g : RandState) : Except String (List Stock × RandState) := do
  let (circuit_breakers, g0) := pyUniform (1/10) (1/4) g
  let (companies, total_weight, g1) :=
    genLoop fo random_seed circuit_breakers num_companies 0 0 g0
  let updated_companies ← normalizeWeights companies total_weight
  return (updated_companies, g1)

/-- Embeds `company.calculate_stock_market_value`. -/
def calculate_stock_market_value (companies : List Stock) : ℚ × ℚ × ℚ × ℚ :=
  let open_value := pyRound2 (companies.map (fun c => c.open_price * c.weight)).sum
  let high_value := pyRound2 (companies.map (fun c => c.high_price * c.weight)).sum
  let low_value := pyRound2 (companies.map (fun c => c.low_price * c.weight)).sum
  let close_value := pyRound2 (companies.map (fun c => c.close_price * c.weight)).sum
  (open_value, high_value, low_value, close_value)

/-! ## Lemmas about the counting dictionary and `max(d, key=d.get)` -/

theorem dictGet_cons [DecidableEq α] (kv : α × ℕ) (rest : List (α × ℕ)) (k : α) :
    dictGet (kv :: rest) k = if kv.1 = k then kv.2 else dictGet rest k := by
  by_cases h : kv.1 = k <;> simp [dictGet, List.find?_cons, h]

theorem dictGet_dictSet_self [DecidableEq α] (d : List (α × ℕ)) (k : α) (v : ℕ) :
    dictGet (dictSet d k v) k = v := by
  induction d with
  | nil => simp [dictSet, dictGet, List.find?]
  | cons kv rest ih =>
    by_cases h : kv.1 = k
    · simp [dictSet, h, dictGet_cons]
    · simp only [dictSet, if_neg h]
      rw [dictGet_cons, if_neg h, ih]

theorem dictGet_dictSet_ne [DecidableEq α] (d : List (α × ℕ)) (k : α) (v : ℕ)
    (a : α) (h : a ≠ k) : dictGet (dictSet d k v) a = dictGet d a := by
  induction d with
  | nil =>
    rw [show dictSet ([] : List (α × ℕ)) k v = [(k, v)] from rfl, dictGet_cons,
      if_neg (show ¬((k, v).1 = a) from fun hk => h hk.symm)]
  | cons kv rest ih =>
    by_cases hk : kv.1 = k
    · simp only [dictSet, if_pos hk]
      rw [dictGet_cons, dictGet_cons,
        if_neg (show ¬((k, v).1 = a) from fun hk2 => h hk2.symm),
        if_neg (show ¬(kv.1 = a) from fun hk2 => h (hk.symm.trans hk2).symm)]
    · simp only [dictSet, if_neg hk]
      rw [dictGet_cons, dictGet_cons, ih]

theorem dictGet_countFold [DecidableEq α] (l : List α) :
    ∀ (d : List (α × ℕ)) (k : α),
      dictGet (l.foldl (fun d k => dictSet d k (dictGet d k + 1)) d) k
        = dictGet d k + l.count k := by
  induction l with
  | nil => intro d k; simp
  | cons x xs ih =>
    intro d k
    rw [List.foldl_cons, ih]
    by_cases h : x = k
    · subst h
      rw [dictGet_dictSet_self]
      simp [List.count_cons]
      omega
    · rw [dictGet_dictSet_ne _ _ _ _ (fun hk => h hk.symm)]
      simp [List.count_cons, h, Ne.symm h]

theorem mem_keys_dictSet [DecidableEq α] (d : List (α × ℕ)) (k : α) (v : ℕ) (a : α) :
    a ∈ (dictSet d k v).map Prod.fst ↔ a ∈ d.map Prod.fst ∨ a = k := by
  induction d with
  | nil => simp [dictSet, eq_comm]
  | cons kv rest ih =>
    by_cases hk : kv.1 = k
    · subst hk
      rw [show dictSet (kv :: rest) kv.1 v = (kv.1, v) :: rest by simp [dictSet]]
      simp only [List.map_cons, List.mem_cons]
      constructor
      · rintro (h | h)
        · exact Or.inr h
        · exact Or.inl (Or.inr h)
      · rintro ((h | h) | h)
        · exact Or.inl h
        · exact Or.inr h
        · exact Or.inl h
    · simp only [dictSet, if_neg hk, List.map_cons, List.mem_cons, ih]
      tauto

theorem mem_keys_countFold [DecidableEq α] (l : List α) :
    ∀ (d : List (α × ℕ)) (a : α),
      a ∈ ((l.foldl (fun d k => dictSet d k (dictGet d k + 1)) d).map Prod.fst) ↔
        a ∈ d.map Prod.fst ∨ a ∈ l := by
  induction l with
  | nil => intro d a; simp
  | cons x xs ih =>
    intro d a
    rw [List.foldl_cons, ih, mem_keys_dictSet]
    simp only [List.mem_cons]
    tauto

theorem mem_keys_buildCounts [DecidableEq α] (l : List α) (a : α) :
    a ∈ (buildCounts l).map Prod.fst ↔ a ∈ l := by
  unfold buildCounts
  rw [mem_keys_countFold]
  simp

theorem dictGet_buildCounts [DecidableEq α] (l : List α) (k : α) :
    dictGet (buildCounts l) k = l.count k := by
  unfold buildCounts
  rw [dictGet_countFold]
  simp [dictGet]

theorem pyMaxByGetGo_spec [DecidableEq α] (d : List (α × ℕ)) :
    ∀ (ks : List α) (best : α),
      (pyMaxByGetGo d best ks = best ∨ pyMaxByGetGo d best ks ∈ ks) ∧
      dictGet d best ≤ dictGet d (pyMaxByGetGo d best ks) ∧
      ∀ k ∈ ks, dictGet d k ≤ dictGet d (pyMaxByGetGo d best ks) := by
  intro ks
  induction ks with
  | nil => intro best; exact ⟨Or.inl rfl, le_refl _, by simp⟩
  | cons k ks ih =>
    intro best
    by_cases h : dictGet d k > dictGet d best
    · have hrec := ih k
      refine ⟨?_, ?_, ?_⟩
      · rcases hrec.1 with h1 | h1
        · exact Or.inr (by simp [pyMaxByGetGo, if_pos h, h1])
        · exact Or.inr (by simp [pyMaxByGetGo, if_pos h]; exact Or.inr h1)
      · simp only [pyMaxByGetGo, if_pos h]
        exact le_trans (le_of_lt h) hrec.2.1
      · intro a ha
        simp only [pyMaxByGetGo, if_pos h]
        rcases List.mem_cons.mp ha with rfl | ha
        · exact hrec.2.1
        · exact hrec.2.2 a ha
    · have hrec := ih best
      refine ⟨?_, ?_, ?_⟩
      · rcases hrec.1 with h1 | h1
        · exact Or.inl (by simp [pyMaxByGetGo, if_neg h, h1])
        · exact Or.inr (by simp [pyMaxByGetGo, if_neg h]; exact Or.inr h1)
      · simp only [pyMaxByGetGo, if_neg h]
        exact hrec.2.1
      · intro a ha
        simp only [pyMaxByGetGo, if_neg h]
        rcases List.mem_cons.mp ha with rfl | ha
        · exact le_trans (not_lt.mp h) hrec.2.1
        · exact hrec.2.2 a ha

theorem pyMaxByGet_spec [DecidableEq α] (d : List (α × ℕ)) (hd : d ≠ []) :
    ∃ v, pyMaxByGet d = some v ∧ v ∈ d.map Prod.fst ∧
      ∀ k ∈ d.map Prod.fst, dictGet d k ≤ dictGet d v := by
  cases hk : d.map Prod.fst with
  | nil => exact absurd (List.map_eq_nil_iff.mp hk) hd
  | cons k ks =>
    have hspec := pyMaxByGetGo_spec d ks k
    refine ⟨pyMaxByGetGo d k ks, ?_, ?_, ?_⟩
    · unfold pyMaxByGet
      rw [hk]
    · rcases hspec.1 with h | h
      · rw [h]
        exact List.mem_cons_self _ _
      · exact List.mem_cons_of_mem _ h
    · intro a ha
      rcases List.mem_cons.mp ha with rfl | ha
      · exact hspec.2.1
      · exact hspec.2.2 a ha

/-! ## Lemmas about `mapE` -/

theorem mapE_cons (f : α → Except String β) (x : α) (xs : List α) :
    mapE f (x :: xs) =
      match f x, mapE f xs with
      | Except.error e, _ => Except.error e
      | Except.ok _, Except.error e => Except.error e
      | Except.ok y, Except.ok ys => Except.ok (y :: ys) := by
  simp only [mapE]
  cases f x <;> cases mapE f xs <;> rfl

theorem mapE_congr_ok {f : α → Except String β} {h : α → β} :
    ∀ {l : List α}, (∀ x ∈ l, f x = Except.ok (h x)) →
      mapE f l = Except.ok (l.map h)
  | [], _ => rfl
  | x :: xs, hl => by
    have hx := hl x (List.mem_cons_self _ _)
    have hxs := mapE_congr_ok (fun y hy => hl y (List.mem_cons_of_mem _ hy))
    rw [mapE_cons, hx, hxs]
    rfl

theorem mapE_error_src {f : α → Except String β} {e : String} :
    ∀ {l : List α}, mapE f l = Except.error e → ∃ x ∈ l, f x = Except.error e
  | [], h => by simp [mapE] at h
  | x :: xs, h => by
    rw [mapE_cons] at h
    cases hx : f x with
    | error e' =>
      rw [hx] at h
      simp at h
      exact ⟨x, List.mem_cons_self _ _, by rw [hx, h]⟩
    | ok y =>
      rw [hx] at h
      cases hxs : mapE f xs with
      | error e' =>
        rw [hxs] at h
        simp at h
        obtain ⟨z, hz, hfz⟩ := mapE_error_src (hxs.trans (by rw [h]))
        exact ⟨z, List.mem_cons_of_mem _ hz, hfz⟩
      | ok ys =>
        rw [hxs] at h
        simp at h

theorem mapE_ok_length {f : α → Except String β} :
    ∀ {l : List α} {ys : List β}, mapE f l = Except.ok ys → ys.length = l.length
  | [], ys, h => by
    simp only [mapE] at h
    cases h
    rfl
  | x :: xs, ys, h => by
    rw [mapE_cons] at h
    cases hx : f x with
    | error e => rw [hx] at h; simp at h
    | ok y =>
      rw [hx] at h
      cases hxs : mapE f xs with
      | error e => rw [hxs] at h; simp at h
      | ok zs =>
        rw [hxs] at h
        simp at h
        have := mapE_ok_length hxs
        rw [← h]
        simp [this]

theorem mapE_map {f : β → Except String γ} {g : α → β} :
    ∀ (l : List α), mapE f (l.map g) = mapE (fun x => f (g x)) l
  | [] => rfl
  | x :: xs => by
    simp only [List.map_cons, mapE, mapE_map xs]

/-! ## C1: the most-frequent blood group reducers -/

/-- Profiles whose blood groups are `[A+, B-, A+]`, the example of the claim. -/
def c1profiles : List Profile :=
  [⟨"A+", (0, 0), some ⟨1990, 1, 1⟩⟩,
   ⟨"B-", (10, 10), some ⟨1985, 2, 2⟩⟩,
   ⟨"A+", (20, 20), some ⟨2000, 3, 3⟩⟩]

/-- C1: for every non-empty list of profiles, `get_largest_blood_type` counts
occurrences per distinct `blood_group` value and returns a value of maximum
count; over blood groups `[A+, B-, A+]` both the namedtuple and the dictionary
reducer select `A+`. -/
theorem C1_largest_blood_type_is_mode :
    (∀ ps : List Profile, ps ≠ [] →
       ∃ v, get_largest_blood_type ps = Except.ok v ∧
         v ∈ ps.map Profile.blood_group ∧
         ∀ g : String, (ps.map Profile.blood_group).count g ≤
           (ps.map Profile.blood_group).count v) ∧
    get_largest_blood_type c1profiles = Except.ok "A+" ∧
    get_largest_blood_type_dict (c1profiles.map dictOf) = Except.ok (PVal.s "A+") := by
  refine ⟨?_, by decide, by decide⟩
  intro ps hps
  have hl : ps.map Profile.blood_group ≠ [] := by
    simpa using hps
  have hbc : buildCounts (ps.map Profile.blood_group) ≠ [] := by
    intro hempty
    obtain ⟨x, hx⟩ := List.exists_mem_of_ne_nil _ hl
    have := (mem_keys_buildCounts (ps.map Profile.blood_group) x).mpr hx
    rw [hempty] at this
    simp at this
  obtain ⟨v, hv, hvmem, hvmax⟩ := pyMaxByGet_spec _ hbc
  refine ⟨v, ?_, ?_, ?_⟩
  · unfold get_largest_blood_type
    rw [if_neg hps, hv]
  · exact (mem_keys_buildCounts _ _).mp hvmem
  · intro g
    by_cases hg : g ∈ ps.map Profile.blood_group
    · have := hvmax g ((mem_keys_buildCounts _ _).mpr hg)
      rwa [dictGet_buildCounts, dictGet_buildCounts] at this
    · rw [List.count_eq_zero.mpr hg]
      exact Nat.zero_le _

/-! ## C10: the mean-location reducers -/

theorem ok_bind (a : α) (f : α → Except String β) : (Except.ok a >>= f) = f a := rfl

theorem error_bind (e : String) (f : α → Except String β) :
    ((Except.error e : Except String α) >>= f) = Except.error e := rfl

theorem pyGetItem_dictOf_blood (p : Profile) :
    pyGetItem (dictOf p) "blood_group" = Except.ok (PVal.s p.blood_group) := rfl

theorem pyGetItem_dictOf_loc (p : Profile) :
    pyGetItem (dictOf p) "current_location" = Except.ok (PVal.loc p.current_location) := rfl

theorem pyGetItem_dictOf_birth (p : Profile) :
    pyGetItem (dictOf p) "birthdate" = Except.ok (PVal.d p.birthdate) := rfl

theorem pyLocOf_loc (v : ℚ × ℚ) : pyLocOf (PVal.loc v) = Except.ok v := rfl

theorem np_mean_axis0_ok (l : List (ℚ × ℚ)) (hl : l ≠ []) :
    np_mean_axis0 l =
      Except.ok ((l.map Prod.fst).sum / l.length, (l.map Prod.snd).sum / l.length) := by
  have hlen : ((l.length : ℚ)) ≠ 0 := by
    simp only [ne_eq, Nat.cast_eq_zero, List.length_eq_zero]
    exact hl
  unfold np_mean_axis0
  rw [pyDiv_ok hlen, ok_bind, pyDiv_ok hlen, ok_bind]
  rfl

/-- The mapping variant of the mean-location reducer agrees with the
fixed-schema variant on every list of logically equal records. -/
theorem mean_location_dict_eq (ps : List Profile) :
    get_mean_current_location_dict (ps.map dictOf) = get_mean_current_location ps := by
  unfold get_mean_current_location_dict get_mean_current_location
  by_cases hps : ps = []
  · subst hps; rfl
  · have hmaps : ps.map dictOf ≠ [] := by simpa using hps
    rw [if_neg hmaps, if_neg hps, mapE_map,
      mapE_congr_ok (fun x _ => pyGetItem_dictOf_loc x), ok_bind, mapE_map,
      mapE_congr_ok (fun x _ => pyLocOf_loc x.current_location), ok_bind]

/-- Profiles at locations `(90, 180)` and `(-90, -180)`, the example of the
claim. -/
def c10profiles : List Profile :=
  [⟨"A+", (90, 180), some ⟨1990, 1, 1⟩⟩,
   ⟨"O-", (-90, -180), some ⟨1985, 2, 2⟩⟩]

/-- C10: for every non-empty list of profiles the mean-location reducer
returns the pair of arithmetic means of latitudes and longitudes (exactly, in
the high-precision model), and over `[(90,180), (-90,-180)]` both variants
return exactly `(0, 0)`. -/
theorem C10_mean_location_is_arithmetic_mean :
    (∀ ps : List Profile, ps ≠ [] →
      get_mean_current_location ps =
        Except.ok ((ps.map (fun p => p.current_location.1)).sum / ps.length,
                   (ps.map (fun p => p.current_location.2)).sum / ps.length)) ∧
    get_mean_current_location c10profiles = Except.ok (0, 0) ∧
    get_mean_current_location_dict (c10profiles.map dictOf) = Except.ok (0, 0) := by
  have hgen : ∀ ps : List Profile, ps ≠ [] →
      get_mean_current_location ps =
        Except.ok ((ps.map (fun p => p.current_location.1)).sum / ps.length,
                   (ps.map (fun p => p.current_location.2)).sum / ps.length) := by
    intro ps hps
    have hmap : ps.map Profile.current_location ≠ [] := by simpa using hps
    unfold get_mean_current_location
    rw [if_neg hps, np_mean_axis0_ok _ hmap]
    simp only [List.map_map, List.length_map]
    rfl
  have hnamed : get_mean_current_location c10profiles = Except.ok (0, 0) := by
    rw [hgen c10profiles (by simp [c10profiles])]
    norm_num [c10profiles]
  exact ⟨hgen, hnamed, by rw [mean_location_dict_eq]; exact hnamed⟩

/-! ## C8: the weighted market-value reducer -/

theorem pyRound2_fix (k : ℤ) : pyRound2 ((k : ℚ) / 100) = (k : ℚ) / 100 := by
  unfold pyRound2
  rw [show ((k : ℚ) / 100) * 100 = (k : ℚ) by field_simp, bround_intCast]

theorem pyRound2_zero : pyRound2 0 = 0 := by
  have h := pyRound2_fix 0
  simpa using h

/-- A concrete two-decimal stock record with weight `1.0`. -/
def c8stock : Stock := ⟨"Tech Corp", "TCX", 500, 550, 480, 525, 1⟩

/-- C8: `calculate_stock_market_value` returns the four weighted sums, each
rounded to 2 decimals; the empty list yields `(0,0,0,0)` without error; and a
single record of weight `1.0` (with two-decimal prices, as the generator
produces) is returned unchanged. -/
theorem C8_market_value_weighted_sums :
    (∀ cs : List Stock, calculate_stock_market_value cs =
      (pyRound2 (cs.map (fun c => c.open_price * c.weight)).sum,
       pyRound2 (cs.map (fun c => c.high_price * c.weight)).sum,
       pyRound2 (cs.map (fun c => c.low_price * c.weight)).sum,
       pyRound2 (cs.map (fun c => c.close_price * c.weight)).sum)) ∧
    calculate_stock_market_value [] = (0, 0, 0, 0) ∧
    (∀ s : Stock, s.weight = 1 →
      (∃ k : ℤ, s.open_price = (k : ℚ) / 100) →
      (∃ k : ℤ, s.high_price = (k : ℚ) / 100) →
      (∃ k : ℤ, s.low_price = (k : ℚ) / 100) →
      (∃ k : ℤ, s.close_price = (k : ℚ) / 100) →
      calculate_stock_market_value [s] =
        (s.open_price, s.high_price, s.low_price, s.close_price)) := by
  refine ⟨fun cs => rfl, by simp [calculate_stock_market_value, pyRound2_zero], ?_⟩
  rintro s hw ⟨ko,ho⟩ ⟨kh, hh⟩ ⟨kl, hl⟩ ⟨kc, hc⟩
  unfold calculate_stock_market_value
  simp only [List.map_cons, List.map_nil, List.sum_cons, List.sum_nil, add_zero, hw, mul_one]
  rw [ho, hh, hl, hc, pyRound2_fix, pyRound2_fix, pyRound2_fix, pyRound2_fix]

/-- Witness for C8: the single-record case evaluated at a concrete stock. -/
theorem C8_market_value_weighted_sums_witness :
    calculate_stock_market_value [c8stock] =
      (c8stock.open_price, c8stock.high_price, c8stock.low_price, c8stock.close_price) :=
  C8_market_value_weighted_sums.2.2 c8stock rfl
    ⟨50000, by norm_num [c8stock]⟩ ⟨55000, by norm_num [c8stock]⟩
    ⟨48000, by norm_num [c8stock]⟩ ⟨52500, by norm_num [c8stock]⟩

/-- Witness for C1: the universal part instantiated at the example profiles. -/
theorem C1_largest_blood_type_is_mode_witness :
    ∃ v, get_largest_blood_type c1profiles = Except.ok v ∧
      v ∈ c1profiles.map Profile.blood_group ∧
      ∀ g : String, (c1profiles.map Profile.blood_group).count g ≤
        (c1profiles.map Profile.blood_group).count v :=
  C1_largest_blood_type_is_mode.1 c1profiles (by decide)

/-- Witness for C10: the universal part instantiated at the example profiles. -/
theorem C10_mean_location_is_arithmetic_mean_witness :
    get_mean_current_location c10profiles =
      Except.ok ((c10profiles.map (fun p => p.current_location.1)).sum / c10profiles.length,
                 (c10profiles.map (fun p => p.current_location.2)).sum / c10profiles.length) :=
  C10_mean_location_is_arithmetic_mean.1 c10profiles (by decide)

/-! ## Error classification: which messages each helper can raise -/

theorem pyDiv_error {a b : ℚ} {e : String} (h : pyDiv a b = Except.error e) :
    e = "ZeroDivisionError: division by zero" := by
  unfold pyDiv at h
  split at h
  · exact (Except.error.injEq _ _ ▸ h.symm).symm ▸ rfl
  · exact absurd h (by simp)

theorem pyGetItem_error {d : DictProfile} {k : String} {e : String}
    (h : pyGetItem d k = Except.error e) : e = "KeyError: " ++ k := by
  unfold pyGetItem at h
  split at h
  · exact absurd h (by simp)
  · simp at h
    exact h.symm

theorem pvalLt_error {a b : PVal} {e : String} (h : pvalLt a b = Except.error e) :
    e = "TypeError: cannot compare NoneType and date" ∨
    e = "TypeError: unsupported comparison between mismatched types" := by
  unfold pvalLt at h
  split at h <;> simp_all

theorem pyLocOf_error {v : PVal} {e : String} (h : pyLocOf v = Except.error e) :
    e = "TypeError: current_location is not a coordinate pair" := by
  unfold pyLocOf at h
  split at h <;> simp_all

theorem pyYearOf_error {v : PVal} {e : String} (h : pyYearOf v = Except.error e) :
    e = "AttributeError: NoneType object has no attribute year" ∨
    e = "AttributeError: object has no attribute year" := by
  unfold pyYearOf at h
  split at h <;> simp_all

theorem ageOf_error {cy : ℤ} {x : Profile} {e : String}
    (h : ageOf cy x = Except.error e) :
    e = "AttributeError: NoneType object has no attribute year" := by
  unfold ageOf at h
  split at h <;> simp_all

theorem ageOfDict_error {cy : ℤ} {x : DictProfile} {e : String}
    (h : ageOfDict cy x = Except.error e) :
    e = "KeyError: birthdate" ∨
    e = "AttributeError: NoneType object has no attribute year" ∨
    e = "AttributeError: object has no attribute year" := by
  unfold ageOfDict at h
  cases h1 : pyGetItem x "birthdate" with
  | error e1 =>
    rw [h1, error_bind] at h
    exact Or.inl ((Except.error.injEq _ _ ▸ h).symm ▸ pyGetItem_error h1)
  | ok bd =>
    rw [h1, ok_bind] at h
    cases h2 : pyYearOf bd with
    | error e2 =>
      rw [h2, error_bind] at h
      have he : e = e2 := (Except.error.injEq _ _ ▸ h).symm
      exact Or.inr (he ▸ pyYearOf_error h2)
    | ok y =>
      rw [h2, ok_bind] at h
      exact absurd h (by simp [pure, Except.pure])

theorem np_mean_axis0_error {l : List (ℚ × ℚ)} {e : String}
    (h : np_mean_axis0 l = Except.error e) :
    e = "ZeroDivisionError: division by zero" := by
  unfold np_mean_axis0 at h
  cases h1 : pyDiv (l.map Prod.fst).sum l.length with
  | error e1 =>
    rw [h1, error_bind] at h
    exact (Except.error.injEq _ _ ▸ h).symm ▸ pyDiv_error h1
  | ok a =>
    rw [h1, ok_bind] at h
    cases h2 : pyDiv (l.map Prod.snd).sum l.length with
    | error e2 =>
      rw [h2, error_bind] at h
      exact (Except.error.injEq _ _ ▸ h).symm ▸ pyDiv_error h2
    | ok b =>
      rw [h2, ok_bind] at h
      exact absurd h (by simp [pure, Except.pure])

theorem pyMinByGo_error_src {key : α → Except String β}
    {lt : β → β → Except String Bool} :
    ∀ {l : List α} {best : α} {bestK : β} {e : String},
      pyMinByGo key lt best bestK l = Except.error e →
      (∃ y ∈ l, key y = Except.error e) ∨ (∃ u v, lt u v = Except.error e)
  | [], _, _, _, h => absurd h (by simp [pyMinByGo])
  | y :: ys, best, bestK, e, h => by
    rw [show pyMinByGo key lt best bestK (y :: ys) = (do
          let yk ← key y
          let isLt ← lt yk bestK
          if isLt then pyMinByGo key lt y yk ys else pyMinByGo key lt best bestK ys)
        from rfl] at h
    cases h1 : key y with
    | error e1 =>
      rw [h1, error_bind] at h
      exact Or.inl ⟨y, List.mem_cons_self _ _, h1.trans (by rw [(Except.error.injEq _ _ ▸ h : e1 = e)])⟩
    | ok yk =>
      rw [h1, ok_bind] at h
      cases h2 : lt yk bestK with
      | error e2 =>
        rw [h2, error_bind] at h
        exact Or.inr ⟨yk, bestK, h2.trans (by rw [(Except.error.injEq _ _ ▸ h : e2 = e)])⟩
      | ok isLt =>
        rw [h2, ok_bind] at h
        cases isLt with
        | true =>
          rw [if_pos rfl] at h
          rcases pyMinByGo_error_src h with ⟨z, hz, hfz⟩ | hlt
          · exact Or.inl ⟨z, List.mem_cons_of_mem _ hz, hfz⟩
          · exact Or.inr hlt
        | false =>
          rw [if_neg (by simp)] at h
          rcases pyMinByGo_error_src h with ⟨z, hz, hfz⟩ | hlt
          · exact Or.inl ⟨z, List.mem_cons_of_mem _ hz, hfz⟩
          · exact Or.inr hlt

theorem pyMinBy_error_src {key : α → Except String β}
    {lt : β → β → Except String Bool} {x : α} {xs : List α} {e : String}
    (h : pyMinBy key lt (x :: xs) = Except.error e) :
    (∃ y ∈ x :: xs, key y = Except.error e) ∨ (∃ u v, lt u v = Except.error e) := by
  rw [show pyMinBy key lt (x :: xs) = (do
        let xk ← key x
        pyMinByGo key lt x xk xs) from rfl] at h
  cases h1 : key x with
  | error e1 =>
    rw [h1, error_bind] at h
    exact Or.inl ⟨x, List.mem_cons_self _ _, h1.trans (by rw [(Except.error.injEq _ _ ▸ h : e1 = e)])⟩
  | ok xk =>
    rw [h1, ok_bind] at h
    rcases pyMinByGo_error_src h with ⟨z, hz, hfz⟩ | hlt
    · exact Or.inl ⟨z, List.mem_cons_of_mem _ hz, hfz⟩
    · exact Or.inr hlt

/-! ## C7: the empty-input policy of the eight reducers -/

theorem glbt_ne_emptyMsg (ps : List Profile) (hps : ps ≠ []) :
    get_largest_blood_type ps ≠ Except.error emptyMsg := by
  unfold get_largest_blood_type
  rw [if_neg hps]
  cases hmax : pyMaxByGet (buildCounts (ps.map Profile.blood_group)) with
  | some v => simp
  | none => decide

theorem glbtd_ne_emptyMsg (ps : List DictProfile) (hps : ps ≠ []) :
    get_largest_blood_type_dict ps ≠ Except.error emptyMsg := by
  unfold get_largest_blood_type_dict
  rw [if_neg hps]
  cases hg : mapE (fun p => pyGetItem p "blood_group") ps with
  | error e =>
    rw [error_bind]
    obtain ⟨x, _, hfx⟩ := mapE_error_src hg
    rw [pyGetItem_error hfx]
    decide
  | ok groups =>
    rw [ok_bind]
    cases hmax : pyMaxByGet (buildCounts groups) with
    | some v => simp
    | none => decide

theorem gmcl_ne_emptyMsg (ps : List Profile) (hps : ps ≠ []) :
    get_mean_current_location ps ≠ Except.error emptyMsg := by
  unfold get_mean_current_location
  rw [if_neg hps]
  intro h
  exact absurd (np_mean_axis0_error h) (by decide)

theorem gmcld_ne_emptyMsg (ps : List DictProfile) (hps : ps ≠ []) :
    get_mean_current_location_dict ps ≠ Except.error emptyMsg := by
  unfold get_mean_current_location_dict
  rw [if_neg hps]
  intro h
  cases hg : mapE (fun p => pyGetItem p "current_location") ps with
  | error e =>
    rw [hg, error_bind] at h
    rw [Except.error.injEq] at h
    obtain ⟨x, _, hfx⟩ := mapE_error_src hg
    exact absurd (h ▸ pyGetItem_error hfx) (by decide)
  | ok vals =>
    rw [hg, ok_bind] at h
    cases hv : mapE pyLocOf vals with
    | error e =>
      rw [hv, error_bind] at h
      rw [Except.error.injEq] at h
      obtain ⟨x, _, hfx⟩ := mapE_error_src hv
      exact absurd (h ▸ pyLocOf_error hfx) (by decide)
    | ok locs =>
      rw [hv, ok_bind] at h
      exact absurd (np_mean_axis0_error h) (by decide)

theorem gopa_ne_emptyMsg (current_year : ℤ) (ps : List Profile) (hps : ps ≠ []) :
    get_oldest_person_age current_year ps ≠ Except.error emptyMsg := by
  unfold get_oldest_person_age
  rw [if_neg hps]
  intro h
  obtain ⟨x, xs, rfl⟩ : ∃ x xs, ps = x :: xs := by
    cases ps with
    | nil => exact absurd rfl hps
    | cons x xs => exact ⟨x, xs, rfl⟩
  cases hm : pyMinBy (fun x => Except.ok x.birthdate) optDateLt (x :: xs) with
  | error e =>
    rw [hm, error_bind] at h
    rw [Except.error.injEq] at h
    subst h
    rcases pyMinBy_error_src hm with ⟨y, _, hfy⟩ | ⟨u, v, huv⟩
    · exact absurd hfy (by simp)
    · unfold optDateLt at huv
      rcases pvalLt_error huv with h1 | h1 <;> exact absurd h1 (by decide)
  | ok m =>
    rw [hm, ok_bind] at h
    cases hb : m.birthdate with
    | none =>
      rw [hb] at h
      exact absurd (Except.error.injEq _ _ ▸ h) (by decide)
    | some d =>
      rw [hb] at h
      have h2 : (if d.year > current_year then Except.error birthdateMsg
          else Except.ok (current_year - d.year)) = Except.error emptyMsg := h
      by_cases hy : d.year > current_year
      · rw [if_pos hy] at h2
        exact absurd (Except.error.injEq _ _ ▸ h2) (by decide)
      · rw [if_neg hy] at h2
        exact absurd h2 (by simp)

theorem gopad_ne_emptyMsg (current_year : ℤ) (ps : List DictProfile) (hps : ps ≠ []) :
    get_oldest_person_age_dict current_year ps ≠ Except.error emptyMsg := by
  unfold get_oldest_person_age_dict
  rw [if_neg hps]
  intro h
  obtain ⟨x, xs, rfl⟩ : ∃ x xs, ps = x :: xs := by
    cases ps with
    | nil => exact absurd rfl hps
    | cons x xs => exact ⟨x, xs, rfl⟩
  cases hm : pyMinBy (fun x => pyGetItem x "birthdate") pvalLt (x :: xs) with
  | error e =>
    rw [hm, error_bind] at h
    rw [Except.error.injEq] at h
    subst h
    rcases pyMinBy_error_src hm with ⟨y, _, hfy⟩ | ⟨u, v, huv⟩
    · exact absurd (pyGetItem_error hfy) (by decide)
    · rcases pvalLt_error huv with h1 | h1 <;> exact absurd h1 (by decide)
  | ok m =>
    rw [hm, ok_bind] at h
    cases hbd : pyGetItem m "birthdate" with
    | error e =>
      rw [hbd, error_bind] at h
      rw [Except.error.injEq] at h
      exact absurd (h ▸ pyGetItem_error hbd) (by decide)
    | ok bd =>
      rw [hbd, ok_bind] at h
      by_cases hnone : bd = PVal.d none
      · rw [if_pos hnone] at h
        exact absurd (Except.error.injEq _ _ ▸ h) (by decide)
      · rw [if_neg hnone] at h
        cases hyv : pyYearOf bd with
        | error e =>
          rw [hyv, error_bind] at h
          rw [Except.error.injEq] at h
          rcases pyYearOf_error hyv with h1 | h1 <;> exact absurd (h ▸ h1) (by decide)
        | ok y =>
          rw [hyv, ok_bind] at h
          by_cases hy : y > current_year
          · rw [if_pos hy] at h
            exact absurd (Except.error.injEq _ _ ▸ h) (by decide)
          · rw [if_neg hy] at h
            exact absurd h (by simp)

theorem gaa_ne_emptyMsg (current_year : ℤ) (ps : List Profile) (hps : ps ≠ []) :
    get_average_age current_year ps ≠ Except.error emptyMsg := by
  unfold get_average_age
  rw [if_neg hps]
  intro h
  cases hg : mapE (ageOf current_year) ps with
  | error e =>
    rw [hg, error_bind] at h
    rw [Except.error.injEq] at h
    obtain ⟨x, _, hfx⟩ := mapE_error_src hg
    exact absurd (h ▸ ageOf_error hfx) (by decide)
  | ok ages =>
    rw [hg, ok_bind] at h
    by_cases hcond : ages.length = 0 ∨ ages.sum ≤ 0
    · rw [if_pos hcond] at h
      exact absurd (Except.error.injEq _ _ ▸ h) (by decide)
    · rw [if_neg hcond] at h
      exact absurd (pyDiv_error h) (by decide)

theorem gaad_ne_emptyMsg (current_year : ℤ) (ps : List DictProfile) (hps : ps ≠ []) :
    get_average_age_dict current_year ps ≠ Except.error emptyMsg := by
  unfold get_average_age_dict
  rw [if_neg hps]
  intro h
  cases hg : mapE (ageOfDict current_year) ps with
  | error e =>
    rw [hg, error_bind] at h
    rw [Except.error.injEq] at h
    obtain ⟨x, _, hfx⟩ := mapE_error_src hg
    rcases ageOfDict_error hfx with h1 | h1 | h1 <;> exact absurd (h ▸ h1) (by decide)
  | ok ages =>
    rw [hg, ok_bind] at h
    by_cases hcond : ages.length = 0 ∨ ages.sum ≤ 0
    · rw [if_pos hcond] at h
      exact absurd (Except.error.injEq _ _ ▸ h) (by decide)
    · rw [if_neg hcond] at h
      exact absurd (pyDiv_error h) (by decide)

/-- C7: each of the four profile reducers, in both representation variants,
raises the empty-input error on an empty sequence, and never raises that
error kind on a non-empty sequence. -/
theorem C7_empty_input_policy :
    (get_largest_blood_type [] = Except.error emptyMsg ∧
     get_largest_blood_type_dict [] = Except.error emptyMsg ∧
     get_mean_current_location [] = Except.error emptyMsg ∧
     get_mean_current_location_dict [] = Except.error emptyMsg ∧
     (∀ cy : ℤ, get_oldest_person_age cy [] = Except.error emptyMsg) ∧
     (∀ cy : ℤ, get_oldest_person_age_dict cy [] = Except.error emptyMsg) ∧
     (∀ cy : ℤ, get_average_age cy [] = Except.error emptyMsg) ∧
     (∀ cy : ℤ, get_average_age_dict cy [] = Except.error emptyMsg)) ∧
    ((∀ ps : List Profile, ps ≠ [] →
        get_largest_blood_type ps ≠ Except.error emptyMsg) ∧
     (∀ ps : List DictProfile, ps ≠ [] →
        get_largest_blood_type_dict ps ≠ Except.error emptyMsg) ∧
     (∀ ps : List Profile, ps ≠ [] →
        get_mean_current_location ps ≠ Except.error emptyMsg) ∧
     (∀ ps : List DictProfile, ps ≠ [] →
        get_mean_current_location_dict ps ≠ Except.error emptyMsg) ∧
     (∀ (cy : ℤ) (ps : List Profile), ps ≠ [] →
        get_oldest_person_age cy ps ≠ Except.error emptyMsg) ∧
     (∀ (cy : ℤ) (ps : List DictProfile), ps ≠ [] →
        get_oldest_person_age_dict cy ps ≠ Except.error emptyMsg) ∧
     (∀ (cy : ℤ) (ps : List Profile), ps ≠ [] →
        get_average_age cy ps ≠ Except.error emptyMsg) ∧
     (∀ (cy : ℤ) (ps : List DictProfile), ps ≠ [] →
        get_average_age_dict cy ps ≠ Except.error emptyMsg)) :=
  ⟨⟨rfl, rfl, rfl, rfl, fun _ => rfl, fun _ => rfl, fun _ => rfl, fun _ => rfl⟩,
   glbt_ne_emptyMsg, glbtd_ne_emptyMsg, gmcl_ne_emptyMsg, gmcld_ne_emptyMsg,
   gopa_ne_emptyMsg, gopad_ne_emptyMsg, gaa_ne_emptyMsg, gaad_ne_emptyMsg⟩

/-- A single well-formed profile used to instantiate the non-empty halves. -/
def c7profile : Profile := ⟨"AB+", (12, 34), some ⟨1970, 6, 15⟩⟩

/-- Witness for C7: all eight non-empty guarantees at a singleton input. -/
theorem C7_empty_input_policy_witness :
    get_largest_blood_type [c7profile] ≠ Except.error emptyMsg ∧
    get_largest_blood_type_dict [dictOf c7profile] ≠ Except.error emptyMsg ∧
    get_mean_current_location [c7profile] ≠ Except.error emptyMsg ∧
    get_mean_current_location_dict [dictOf c7profile] ≠ Except.error emptyMsg ∧
    get_oldest_person_age 2025 [c7profile] ≠ Except.error emptyMsg ∧
    get_oldest_person_age_dict 2025 [dictOf c7profile] ≠ Except.error emptyMsg ∧
    get_average_age 2025 [c7profile] ≠ Except.error emptyMsg ∧
    get_average_age_dict 2025 [dictOf c7profile] ≠ Except.error emptyMsg :=
  ⟨C7_empty_input_policy.2.1 _ (by decide),
   C7_empty_input_policy.2.2.1 _ (by decide),
   C7_empty_input_policy.2.2.2.1 _ (by decide),
   C7_empty_input_policy.2.2.2.2.1 _ (by decide),
   C7_empty_input_policy.2.2.2.2.2.1 2025 _ (by decide),
   C7_empty_input_policy.2.2.2.2.2.2.1 2025 _ (by decide),
   C7_empty_input_policy.2.2.2.2.2.2.2.1 2025 _ (by decide),
   C7_empty_input_policy.2.2.2.2.2.2.2.2 2025 _ (by decide)⟩

/-! ## C6: invalid-birthdate and invalid-aggregate error conditions -/

/-- A single profile whose birthdate lies one year in the future of the
ambient year `cy`. -/
def futureProfile (cy : ℤ) : Profile := ⟨"A+", (0, 0), some ⟨cy + 1, 1, 1⟩⟩

/-- C6: on a single profile dated one year in the future the oldest-age
reducer raises the invalid-birthdate error and the mean-age reducer the
invalid-aggregate error (in both representation variants); in general, when
the minimum-birthdate computation succeeds with extremal birthdate `b`, the
oldest-age reducer fails with the invalid-birthdate kind exactly when `b` is
absent or its year exceeds the current year, and when the age list computes,
the mean-age reducer fails with the invalid-aggregate kind exactly when the
sum of ages is `≤ 0`. -/
theorem C6_error_conditions :
    (∀ cy : ℤ,
      get_oldest_person_age_dict cy [dictOf (futureProfile cy)] =
        Except.error birthdateMsg ∧
      get_average_age_dict cy [dictOf (futureProfile cy)] =
        Except.error agesMsg ∧
      get_oldest_person_age cy [futureProfile cy] = Except.error birthdateMsg ∧
      get_average_age cy [futureProfile cy] = Except.error agesMsg) ∧
    (∀ (cy : ℤ) (ps : List DictProfile) (m : DictProfile) (b : Option Date),
      ps ≠ [] →
      pyMinBy (fun x => pyGetItem x "birthdate") pvalLt ps = Except.ok m →
      pyGetItem m "birthdate" = Except.ok (PVal.d b) →
      (get_oldest_person_age_dict cy ps = Except.error birthdateMsg ↔
        b = none ∨ ∃ d, b = some d ∧ cy < d.year)) ∧
    (∀ (cy : ℤ) (ps : List DictProfile) (ages : List ℤ),
      ps ≠ [] →
      mapE (ageOfDict cy) ps = Except.ok ages →
      (get_average_age_dict cy ps = Except.error agesMsg ↔ ages.sum ≤ 0)) := by
  have holdiff : ∀ (cy : ℤ) (ps : List DictProfile) (m : DictProfile) (b : Option Date),
      ps ≠ [] →
      pyMinBy (fun x => pyGetItem x "birthdate") pvalLt ps = Except.ok m →
      pyGetItem m "birthdate" = Except.ok (PVal.d b) →
      (get_oldest_person_age_dict cy ps = Except.error birthdateMsg ↔
        b = none ∨ ∃ d, b = some d ∧ cy < d.year) := by
    intro cy ps m b hps hm hbd
    unfold get_oldest_person_age_dict
    rw [if_neg hps, hm, ok_bind, hbd, ok_bind]
    cases b with
    | none =>
      rw [if_pos rfl]
      simp
    | some d =>
      rw [if_neg (by simp)]
      rw [show pyYearOf (PVal.d (some d)) = Except.ok d.year from rfl, ok_bind]
      by_cases hy : d.year > cy
      · rw [if_pos hy]
        constructor
        · intro _
          exact Or.inr ⟨d, rfl, hy⟩
        · intro _
          rfl
      · rw [if_neg hy]
        constructor
        · intro h
          exact absurd h (by simp)
        · rintro (h | ⟨d2, hd2, hlt⟩)
          · exact absurd h (by simp)
          · rw [Option.some.injEq] at hd2
            exact absurd (hd2 ▸ hlt) hy
  have havgiff : ∀ (cy : ℤ) (ps : List DictProfile) (ages : List ℤ),
      ps ≠ [] →
      mapE (ageOfDict cy) ps = Except.ok ages →
      (get_average_age_dict cy ps = Except.error agesMsg ↔ ages.sum ≤ 0) := by
    intro cy ps ages hps hg
    have hlen : ages.length ≠ 0 := by
      rw [mapE_ok_length hg]
      simpa [List.length_eq_zero] using hps
    unfold get_average_age_dict
    rw [if_neg hps, hg, ok_bind]
    by_cases hcond : ages.length = 0 ∨ ages.sum ≤ 0
    · rw [if_pos hcond]
      rcases hcond with hc | hc
      · exact absurd hc hlen
      · simp [hc]
    · rw [if_neg hcond]
      push_neg at hcond
      constructor
      · intro h
        have := pyDiv_error h
        exact absurd this (by decide)
      · intro h
        exact absurd h (not_le.mpr hcond.2)
  refine ⟨?_, holdiff, havgiff⟩
  intro cy
  refine ⟨?_, ?_, ?_, ?_⟩
  · exact (holdiff cy [dictOf (futureProfile cy)] (dictOf (futureProfile cy))
      (some ⟨cy + 1, 1, 1⟩) (by simp) rfl rfl).mpr
      (Or.inr ⟨⟨cy + 1, 1, 1⟩, rfl, (by omega : cy < cy + 1)⟩)
  · exact (havgiff cy [dictOf (futureProfile cy)] [cy - (cy + 1)] (by simp) rfl).mpr
      (by simp)
  · unfold get_oldest_person_age
    rw [if_neg (by simp),
      show pyMinBy (fun x => Except.ok x.birthdate) optDateLt [futureProfile cy] =
        Except.ok (futureProfile cy) from rfl, ok_bind]
    show (if cy + 1 > cy then Except.error birthdateMsg
      else Except.ok (cy - (cy + 1))) = Except.error birthdateMsg
    rw [if_pos (by omega)]
  · unfold get_average_age
    rw [if_neg (by simp),
      show mapE (ageOf cy) [futureProfile cy] = Except.ok [cy - (cy + 1)] from rfl,
      ok_bind]
    rw [if_pos (Or.inr (by simp))]

/-- Witness for C6: the two general equivalences instantiated at a concrete
year and a concrete singleton input. -/
theorem C6_error_conditions_witness :
    (get_oldest_person_age_dict 2025 [dictOf (futureProfile 2025)] =
        Except.error birthdateMsg ↔
      (some (Date.mk (2025 + 1) 1 1) : Option Date) = none ∨
        ∃ d, (some (Date.mk (2025 + 1) 1 1) : Option Date) = some d ∧ 2025 < d.year) ∧
    (get_average_age_dict 2025 [dictOf (futureProfile 2025)] =
        Except.error agesMsg ↔ ([(2025 : ℤ) - (2025 + 1)].sum ≤ 0)) :=
  ⟨C6_error_conditions.2.1 2025 [dictOf (futureProfile 2025)]
      (dictOf (futureProfile 2025)) (some ⟨2025 + 1, 1, 1⟩) (by simp) rfl rfl,
   C6_error_conditions.2.2 2025 [dictOf (futureProfile 2025)]
      [(2025 : ℤ) - (2025 + 1)] (by simp) rfl⟩

/-! ## C3: the mapping-keyed reducers refine the fixed-schema reducers

The two implementations are textually identical up to the field access
(`p["k"]` vs. `p.k`); the lemmas below push an injective renaming of the
counting keys (`PVal.s`) and the record translation (`dictOf`) through the
counting dictionary, `max(d, key=d.get)`, `min(ps, key=...)`, and `mapE`. -/

theorem mapE_congr {f f2 : α → Except String β} :
    ∀ {l : List α}, (∀ x ∈ l, f x = f2 x) → mapE f l = mapE f2 l
  | [], _ => rfl
  | x :: xs, hl => by
    rw [mapE_cons, mapE_cons, hl x (List.mem_cons_self _ _),
      mapE_congr (fun y hy => hl y (List.mem_cons_of_mem _ hy))]

theorem dictGet_mapKeys [DecidableEq α] [DecidableEq α2] {f : α → α2}
    (hf : Function.Injective f) (d : List (α × ℕ)) (k : α) :
    dictGet (d.map (fun kv => (f kv.1, kv.2))) (f k) = dictGet d k := by
  induction d with
  | nil => rfl
  | cons kv rest ih =>
    rw [List.map_cons, dictGet_cons, dictGet_cons]
    by_cases h : kv.1 = k
    · rw [if_pos (show (f kv.1, kv.2).1 = f k from congrArg f h), if_pos h]
    · rw [if_neg (show ¬((f kv.1, kv.2).1 = f k) from fun hc => h (hf hc)), if_neg h, ih]

theorem dictSet_mapKeys [DecidableEq α] [DecidableEq α2] {f : α → α2}
    (hf : Function.Injective f) (d : List (α × ℕ)) (k : α) (v : ℕ) :
    dictSet (d.map (fun kv => (f kv.1, kv.2))) (f k) v =
      (dictSet d k v).map (fun kv => (f kv.1, kv.2)) := by
  induction d with
  | nil => rfl
  | cons kv rest ih =>
    by_cases h : kv.1 = k
    · simp only [List.map_cons, dictSet,
        if_pos (show (f kv.1, kv.2).1 = f k from congrArg f h), if_pos h, List.map_cons]
    · simp only [List.map_cons, dictSet,
        if_neg (show ¬((f kv.1, kv.2).1 = f k) from fun hc => h (hf hc)), if_neg h,
        List.map_cons, ih]

theorem buildCounts_mapKeys [DecidableEq α] [DecidableEq α2] {f : α → α2}
    (hf : Function.Injective f) (l : List α) :
    buildCounts (l.map f) = (buildCounts l).map (fun kv => (f kv.1, kv.2)) := by
  unfold buildCounts
  suffices h : ∀ d : List (α × ℕ),
      (l.map f).foldl (fun d k => dictSet d k (dictGet d k + 1))
          (d.map (fun kv => (f kv.1, kv.2))) =
        (l.foldl (fun d k => dictSet d k (dictGet d k + 1)) d).map
          (fun kv => (f kv.1, kv.2)) by
    exact h []
  induction l with
  | nil => intro d; rfl
  | cons x xs ih =>
    intro d
    rw [List.map_cons, List.foldl_cons, List.foldl_cons,
      dictGet_mapKeys hf, dictSet_mapKeys hf, ih]

theorem pyMaxByGetGo_mapKeys [DecidableEq α] [DecidableEq α2] {f : α → α2}
    (hf : Function.Injective f) (d : List (α × ℕ)) :
    ∀ (ks : List α) (best : α),
      pyMaxByGetGo (d.map (fun kv => (f kv.1, kv.2))) (f best) (ks.map f) =
        f (pyMaxByGetGo d best ks)
  | [], best => rfl
  | k :: ks, best => by
    rw [List.map_cons]
    by_cases h : dictGet d k > dictGet d best
    · simp only [pyMaxByGetGo, dictGet_mapKeys hf, if_pos h,
        pyMaxByGetGo_mapKeys hf d ks k]
    · simp only [pyMaxByGetGo, dictGet_mapKeys hf, if_neg h,
        pyMaxByGetGo_mapKeys hf d ks best]

theorem pyMaxByGet_mapKeys [DecidableEq α] [DecidableEq α2] {f : α → α2}
    (hf : Function.Injective f) (d : List (α × ℕ)) :
    pyMaxByGet (d.map (fun kv => (f kv.1, kv.2))) = (pyMaxByGet d).map f := by
  unfold pyMaxByGet
  have hkeys : (d.map (fun kv => (f kv.1, kv.2))).map Prod.fst =
      (d.map Prod.fst).map f := by
    rw [List.map_map, List.map_map]
    rfl
  rw [hkeys]
  cases hk : d.map Prod.fst with
  | nil => rfl
  | cons k ks =>
    rw [List.map_cons]
    show some (pyMaxByGetGo (d.map (fun kv => (f kv.1, kv.2))) (f k) (ks.map f)) =
      (some (pyMaxByGetGo d k ks)).map f
    rw [pyMaxByGetGo_mapKeys hf d ks k]
    rfl

theorem pyMinByGo_map {key1 : α → Except String β} {key2 : α2 → Except String β2}
    {lt1 : β → β → Except String Bool} {lt2 : β2 → β2 → Except String Bool}
    {g : α → α2} {f : β → β2}
    (hkey : ∀ x, key2 (g x) = (key1 x).map f)
    (hlt : ∀ a b, lt2 (f a) (f b) = lt1 a b) :
    ∀ (l : List α) (best : α) (bestK : β),
      pyMinByGo key2 lt2 (g best) (f bestK) (l.map g) =
        (pyMinByGo key1 lt1 best bestK l).map g
  | [], _, _ => rfl
  | y :: ys, best, bestK => by
    rw [List.map_cons,
      show pyMinByGo key2 lt2 (g best) (f bestK) (g y :: ys.map g) = (do
        let yk ← key2 (g y)
        let isLt ← lt2 yk (f bestK)
        if isLt then pyMinByGo key2 lt2 (g y) yk (ys.map g)
        else pyMinByGo key2 lt2 (g best) (f bestK) (ys.map g)) from rfl,
      show pyMinByGo key1 lt1 best bestK (y :: ys) = (do
        let yk ← key1 y
        let isLt ← lt1 yk bestK
        if isLt then pyMinByGo key1 lt1 y yk ys
        else pyMinByGo key1 lt1 best bestK ys) from rfl,
      hkey y]
    cases hk : key1 y with
    | error e => rfl
    | ok yk =>
      rw [show (Except.ok yk).map f = Except.ok (f yk) from rfl, ok_bind, ok_bind,
        hlt yk bestK]
      cases hl : lt1 yk bestK with
      | error e => rfl
      | ok b =>
        rw [ok_bind, ok_bind]
        cases b with
        | true =>
          rw [if_pos rfl, if_pos rfl, pyMinByGo_map hkey hlt ys y yk]
        | false =>
          rw [if_neg (by simp), if_neg (by simp), pyMinByGo_map hkey hlt ys best bestK]

theorem pyMinBy_map {key1 : α → Except String β} {key2 : α2 → Except String β2}
    {lt1 : β → β → Except String Bool} {lt2 : β2 → β2 → Except String Bool}
    {g : α → α2} {f : β → β2}
    (hkey : ∀ x, key2 (g x) = (key1 x).map f)
    (hlt : ∀ a b, lt2 (f a) (f b) = lt1 a b) :
    ∀ l : List α, pyMinBy key2 lt2 (l.map g) = (pyMinBy key1 lt1 l).map g
  | [] => rfl
  | x :: xs => by
    rw [List.map_cons,
      show pyMinBy key2 lt2 (g x :: xs.map g) = (do
        let xk ← key2 (g x)
        pyMinByGo key2 lt2 (g x) xk (xs.map g)) from rfl,
      show pyMinBy key1 lt1 (x :: xs) = (do
        let xk ← key1 x
        pyMinByGo key1 lt1 x xk xs) from rfl,
      hkey x]
    cases hk : key1 x with
    | error e => rfl
    | ok xk =>
      rw [show (Except.ok xk).map f = Except.ok (f xk) from rfl, ok_bind, ok_bind,
        pyMinByGo_map hkey hlt xs x xk]

/-- Python `min(profiles, key=lambda x: x["birthdate"])` over translated records is
the translation of `min(profiles, key=lambda x: x.birthdate)`. -/
theorem pyMinBy_birthdate_dictOf (ps : List Profile) :
    pyMinBy (fun x => pyGetItem x "birthdate") pvalLt (ps.map dictOf) =
      (pyMinBy (fun x => Except.ok x.birthdate) optDateLt ps).map dictOf :=
  @pyMinBy_map Profile (Option Date) DictProfile PVal
    (fun x => Except.ok x.birthdate) (fun x => pyGetItem x "birthdate")
    optDateLt pvalLt dictOf PVal.d (fun _ => rfl) (fun _ _ => rfl) ps

theorem PVals_injective : Function.Injective PVal.s := by
  intro a b h
  cases h
  rfl

/-- The mapping variant of the blood-group reducer computes the image under
`PVal.s` of what the fixed-schema variant computes. -/
theorem blood_dict_eq (ps : List Profile) :
    get_largest_blood_type_dict (ps.map dictOf) =
      (get_largest_blood_type ps).map PVal.s := by
  by_cases hps : ps = []
  · subst hps; rfl
  · have hmaps : ps.map dictOf ≠ [] := by simpa using hps
    unfold get_largest_blood_type_dict get_largest_blood_type
    rw [if_neg hmaps, if_neg hps, mapE_map,
      mapE_congr_ok (fun x _ => pyGetItem_dictOf_blood x), ok_bind,
      show ps.map (fun p => PVal.s p.blood_group) =
        (ps.map Profile.blood_group).map PVal.s by rw [List.map_map]; rfl,
      buildCounts_mapKeys PVals_injective, pyMaxByGet_mapKeys PVals_injective]
    cases pyMaxByGet (buildCounts (ps.map Profile.blood_group)) with
    | some v => rfl
    | none => rfl

/-- The mapping variant of the oldest-age reducer agrees with the
fixed-schema variant. -/
theorem oldest_dict_eq (cy : ℤ) (ps : List Profile) :
    get_oldest_person_age_dict cy (ps.map dictOf) = get_oldest_person_age cy ps := by
  by_cases hps : ps = []
  · subst hps; rfl
  · have hmaps : ps.map dictOf ≠ [] := by simpa using hps
    unfold get_oldest_person_age_dict get_oldest_person_age
    rw [if_neg hmaps, if_neg hps,
      pyMinBy_birthdate_dictOf ps]
    cases hm : pyMinBy (fun x => Except.ok x.birthdate) optDateLt ps with
    | error e => rfl
    | ok m =>
      rw [show (Except.ok m).map dictOf = Except.ok (dictOf m) from rfl, ok_bind,
        ok_bind, pyGetItem_dictOf_birth m, ok_bind]
      cases hb : m.birthdate with
      | none => rw [if_pos rfl]
      | some d =>
        rw [if_neg (by simp),
          show pyYearOf (PVal.d (some d)) = Except.ok d.year from rfl, ok_bind]

/-- One record's age computation agrees across the two representations. -/
theorem ageOfDict_dictOf (cy : ℤ) (x : Profile) :
    ageOfDict cy (dictOf x) = ageOf cy x := by
  unfold ageOfDict ageOf
  rw [pyGetItem_dictOf_birth x, ok_bind]
  cases hb : x.birthdate with
  | none => rfl
  | some d => rfl

/-- The mapping variant of the mean-age reducer agrees with the fixed-schema
variant. -/
theorem average_dict_eq (cy : ℤ) (ps : List Profile) :
    get_average_age_dict cy (ps.map dictOf) = get_average_age cy ps := by
  by_cases hps : ps = []
  · subst hps; rfl
  · have hmaps : ps.map dictOf ≠ [] := by simpa using hps
    unfold get_average_age_dict get_average_age
    rw [if_neg hmaps, if_neg hps, mapE_map,
      mapE_congr (fun x _ => ageOfDict_dictOf cy x)]

/-- C3: each dictionary-keyed reducer returns the same result (and the same
error message when it fails) as the corresponding fixed-schema reducer on
logically equal records; for the blood-group reducer the dictionary result is
the `PVal.s` image of the fixed-schema result, since the mapping stores the
blood group as a dictionary value. -/
theorem C3_dict_refines_fixed_schema :
    ∀ ps : List Profile,
      get_largest_blood_type_dict (ps.map dictOf) =
        (get_largest_blood_type ps).map PVal.s ∧
      get_mean_current_location_dict (ps.map dictOf) =
        get_mean_current_location ps ∧
      (∀ cy : ℤ, get_oldest_person_age_dict cy (ps.map dictOf) =
        get_oldest_person_age cy ps) ∧
      (∀ cy : ℤ, get_average_age_dict cy (ps.map dictOf) =
        get_average_age cy ps) :=
  fun ps =>
    ⟨blood_dict_eq ps, mean_location_dict_eq ps,
     fun cy => oldest_dict_eq cy ps, fun cy => average_dict_eq cy ps⟩

/-! ## Structure of one generation step

`genLoop` is re-expressed through one-step draw functions so that the
recursion can be unfolded symbolically (`genLoop_succ_eq` is definitional).
The arguments of each `pyRound2` are exactly the `random.uniform` expressions
of the source. -/

def openDraw (vals : ℕ → ℚ) (pos : ℕ) : ℚ :=
  pyRound2 (100 + (1000 - 100) * vals pos)

def highDraw (cb : ℚ) (vals : ℕ → ℚ) (pos : ℕ) : ℚ :=
  pyRound2 (openDraw vals pos +
    (openDraw vals pos + cb * openDraw vals pos - openDraw vals pos) * vals (pos + 1))

def lowDraw (cb : ℚ) (vals : ℕ → ℚ) (pos : ℕ) : ℚ :=
  pyRound2 ((openDraw vals pos - cb * openDraw vals pos) +
    (openDraw vals pos - (openDraw vals pos - cb * openDraw vals pos)) * vals (pos + 2))

def closeDraw (cb : ℚ) (vals : ℕ → ℚ) (pos : ℕ) : ℚ :=
  pyRound2 (lowDraw cb vals pos +
    (highDraw cb vals pos - lowDraw cb vals pos) * vals (pos + 3))

def weightDraw (vals : ℕ → ℚ) (pos : ℕ) : ℚ :=
  pyRound2 (1/10 + (1 - 1/10) * vals (pos + 4))

/-- The Faker call counter after one iteration. -/
def nextFpos (fo : FakerOracle) (s fpos : ℕ) : ℕ :=
  if tickerConsumesLetter (fo.company s fpos) then fpos + 2 else fpos + 1

/-- The record produced by one loop iteration. -/
def stepStock (fo : FakerOracle) (s : ℕ) (cb : ℚ) (fpos : ℕ)
    (vals : ℕ → ℚ) (pos : ℕ) : Stock :=
  ⟨fo.company s fpos,
   derive_ticker (fo.company s fpos) (fo.random_letter s (fpos + 1)),
   openDraw vals pos, highDraw cb vals pos, lowDraw cb vals pos,
   closeDraw cb vals pos, weightDraw vals pos⟩

theorem genLoop_zero_eq (fo : FakerOracle) (s : ℕ) (cb : ℚ) (fpos : ℕ)
    (tw : ℚ) (g : RandState) : genLoop fo s cb 0 fpos tw g = ([], tw, g) := rfl

theorem genLoop_succ_eq (fo : FakerOracle) (s : ℕ) (cb : ℚ) (n fpos : ℕ)
    (tw : ℚ) (vals : ℕ → ℚ) (pos : ℕ) :
    genLoop fo s cb (n + 1) fpos tw ⟨vals, pos⟩ =
      (stepStock fo s cb fpos vals pos ::
        (genLoop fo s cb n (nextFpos fo s fpos)
          (tw + weightDraw vals pos) ⟨vals, pos + 5⟩).1,
       (genLoop fo s cb n (nextFpos fo s fpos)
          (tw + weightDraw vals pos) ⟨vals, pos + 5⟩).2.1,
       (genLoop fo s cb n (nextFpos fo s fpos)
          (tw + weightDraw vals pos) ⟨vals, pos + 5⟩).2.2) := rfl

theorem generate_companies_eq (fo : FakerOracle) (n s : ℕ) (vals : ℕ → ℚ)
    (pos : ℕ) :
    generate_companies fo n s ⟨vals, pos⟩ = (do
      let updated ← normalizeWeights
        (genLoop fo s (1/10 + (1/4 - 1/10) * vals pos) n 0 0 ⟨vals, pos + 1⟩).1
        (genLoop fo s (1/10 + (1/4 - 1/10) * vals pos) n 0 0 ⟨vals, pos + 1⟩).2.1
      Except.ok (updated,
        (genLoop fo s (1/10 + (1/4 - 1/10) * vals pos) n 0 0 ⟨vals, pos + 1⟩).2.2)) := rfl

theorem genLoop_length (fo : FakerOracle) (s : ℕ) (cb : ℚ) :
    ∀ (n fpos : ℕ) (tw : ℚ) (g : RandState),
      (genLoop fo s cb n fpos tw g).1.length = n := by
  intro n
  induction n with
  | zero => intro fpos tw g; rfl
  | succ n ih =>
    intro fpos tw g
    obtain ⟨vals, pos⟩ := g
    rw [genLoop_succ_eq, List.length_cons, ih]

theorem genLoop_total (fo : FakerOracle) (s : ℕ) (cb : ℚ) :
    ∀ (n fpos : ℕ) (tw : ℚ) (g : RandState),
      (genLoop fo s cb n fpos tw g).2.1 =
        tw + ((genLoop fo s cb n fpos tw g).1.map Stock.weight).sum := by
  intro n
  induction n with
  | zero => intro fpos tw g; simp [genLoop_zero_eq]
  | succ n ih =>
    intro fpos tw g
    obtain ⟨vals, pos⟩ := g
    rw [genLoop_succ_eq]
    dsimp only [stepStock]
    rw [ih]
    simp only [List.map_cons, List.sum_cons]
    ring

theorem genLoop_name_symbol (fo : FakerOracle) (s : ℕ) (cb cb' : ℚ) :
    ∀ (n fpos : ℕ) (tw tw' : ℚ) (vals vals' : ℕ → ℚ) (pos pos' : ℕ),
      (genLoop fo s cb n fpos tw ⟨vals, pos⟩).1.map Stock.name =
        (genLoop fo s cb' n fpos tw' ⟨vals', pos'⟩).1.map Stock.name ∧
      (genLoop fo s cb n fpos tw ⟨vals, pos⟩).1.map Stock.symbol =
        (genLoop fo s cb' n fpos tw' ⟨vals', pos'⟩).1.map Stock.symbol := by
  intro n
  induction n with
  | zero => intro fpos tw tw' vals vals' pos pos'; exact ⟨rfl, rfl⟩
  | succ n ih =>
    intro fpos tw tw' vals vals' pos pos'
    rw [genLoop_succ_eq, genLoop_succ_eq]
    simp only [List.map_cons]
    obtain ⟨ihn, ihs⟩ := ih (nextFpos fo s fpos) (tw + weightDraw vals pos)
      (tw' + weightDraw vals' pos') vals vals' (pos + 5) (pos' + 5)
    exact ⟨by dsimp only [stepStock]; rw [ihn], by dsimp only [stepStock]; rw [ihs]⟩

/-! ## Bounds on one generation step -/

theorem pyRound2_mono_c {c q : ℚ} (hc : ∃ k : ℤ, c = (k : ℚ) / 100) (h : c ≤ q) :
    c ≤ pyRound2 q := by
  obtain ⟨k, rfl⟩ := hc
  exact grid_le_pyRound2 h

theorem pyRound2_anti_c {c q : ℚ} (hc : ∃ k : ℤ, c = (k : ℚ) / 100) (h : q ≤ c) :
    pyRound2 q ≤ c := by
  obtain ⟨k, rfl⟩ := hc
  exact pyRound2_le_grid h

theorem openDraw_spec {vals : ℕ → ℚ} (hv : ValidStream vals) (pos : ℕ) :
    100 ≤ openDraw vals pos ∧ openDraw vals pos ≤ 1000 := by
  obtain ⟨h0, h1⟩ := hv pos
  constructor
  · exact pyRound2_mono_c ⟨10000, by norm_num⟩ (by nlinarith)
  · exact pyRound2_anti_c ⟨100000, by norm_num⟩ (by nlinarith)

theorem highDraw_spec {cb : ℚ} (hcb : 0 ≤ cb) {vals : ℕ → ℚ}
    (hv : ValidStream vals) (pos : ℕ) :
    openDraw vals pos ≤ highDraw cb vals pos ∧
    highDraw cb vals pos - openDraw vals pos ≤ cb * openDraw vals pos + 1/200 := by
  obtain ⟨hr0, hr1⟩ := hv (pos + 1)
  have hO := openDraw_spec hv pos
  have hOpos : (0 : ℚ) ≤ openDraw vals pos := le_trans (by norm_num) hO.1
  have hcbO : (0 : ℚ) ≤ cb * openDraw vals pos := mul_nonneg hcb hOpos
  constructor
  · exact pyRound2_mono_c (pyRound2_isInt100 _) (by nlinarith)
  · have habs := abs_pyRound2_sub (openDraw vals pos +
      (openDraw vals pos + cb * openDraw vals pos - openDraw vals pos) * vals (pos + 1))
    rw [abs_sub_le_iff] at habs
    have hub : openDraw vals pos +
        (openDraw vals pos + cb * openDraw vals pos - openDraw vals pos) * vals (pos + 1) ≤
        openDraw vals pos + cb * openDraw vals pos := by nlinarith
    unfold highDraw
    linarith [habs.1]

theorem lowDraw_spec {cb : ℚ} (hcb : 0 ≤ cb) {vals : ℕ → ℚ}
    (hv : ValidStream vals) (pos : ℕ) :
    lowDraw cb vals pos ≤ openDraw vals pos ∧
    openDraw vals pos - lowDraw cb vals pos ≤ cb * openDraw vals pos + 1/200 := by
  obtain ⟨hr0, hr1⟩ := hv (pos + 2)
  have hO := openDraw_spec hv pos
  have hOpos : (0 : ℚ) ≤ openDraw vals pos := le_trans (by norm_num) hO.1
  have hcbO : (0 : ℚ) ≤ cb * openDraw vals pos := mul_nonneg hcb hOpos
  constructor
  · exact pyRound2_anti_c (pyRound2_isInt100 _) (by nlinarith)
  · have habs := abs_pyRound2_sub ((openDraw vals pos - cb * openDraw vals pos) +
      (openDraw vals pos - (openDraw vals pos - cb * openDraw vals pos)) * vals (pos + 2))
    rw [abs_sub_le_iff] at habs
    have hlb : openDraw vals pos - cb * openDraw vals pos ≤
        (openDraw vals pos - cb * openDraw vals pos) +
        (openDraw vals pos - (openDraw vals pos - cb * openDraw vals pos)) * vals (pos + 2) := by
      nlinarith
    unfold lowDraw
    linarith [habs.2]

theorem closeDraw_spec {cb : ℚ} (hcb : 0 ≤ cb) {vals : ℕ → ℚ}
    (hv : ValidStream vals) (pos : ℕ) :
    lowDraw cb vals pos ≤ closeDraw cb vals pos ∧
    closeDraw cb vals pos ≤ highDraw cb vals pos := by
  obtain ⟨hr0, hr1⟩ := hv (pos + 3)
  have hLH : lowDraw cb vals pos ≤ highDraw cb vals pos :=
    le_trans (lowDraw_spec hcb hv pos).1 (highDraw_spec hcb hv pos).1
  constructor
  · exact pyRound2_mono_c (pyRound2_isInt100 _) (by nlinarith)
  · exact pyRound2_anti_c (pyRound2_isInt100 _) (by nlinarith)

theorem weightDraw_spec {vals : ℕ → ℚ} (hv : ValidStream vals) (pos : ℕ) :
    1/10 ≤ weightDraw vals pos ∧ weightDraw vals pos ≤ 1 := by
  obtain ⟨hr0, hr1⟩ := hv (pos + 4)
  constructor
  · exact pyRound2_mono_c ⟨10, by norm_num⟩ (by nlinarith)
  · exact pyRound2_anti_c ⟨100, by norm_num⟩ (by nlinarith)

/-- Every record of the raw generation loop satisfies the price and weight
bounds (circuit-breaker bounds up to half a cent of rounding slack). -/
theorem genLoop_invariant (fo : FakerOracle) (s : ℕ) {cb : ℚ} (hcb : 0 ≤ cb)
    {vals : ℕ → ℚ} (hv : ValidStream vals) :
    ∀ (n fpos : ℕ) (tw : ℚ) (pos : ℕ),
      ∀ c ∈ (genLoop fo s cb n fpos tw ⟨vals, pos⟩).1,
        100 ≤ c.open_price ∧ c.open_price ≤ 1000 ∧
        c.low_price ≤ c.open_price ∧ c.open_price ≤ c.high_price ∧
        c.low_price ≤ c.close_price ∧ c.close_price ≤ c.high_price ∧
        c.high_price - c.open_price ≤ cb * c.open_price + 1/200 ∧
        c.open_price - c.low_price ≤ cb * c.open_price + 1/200 ∧
        1/10 ≤ c.weight ∧ c.weight ≤ 1 := by
  intro n
  induction n with
  | zero =>
    intro fpos tw pos c hc
    rw [genLoop_zero_eq] at hc
    simp at hc
  | succ n ih =>
    intro fpos tw pos c hc
    rw [genLoop_succ_eq] at hc
    rcases List.mem_cons.mp hc with rfl | hc
    · dsimp only [stepStock]
      have hO := openDraw_spec hv pos
      have hH := highDraw_spec hcb hv pos
      have hL := lowDraw_spec hcb hv pos
      have hC := closeDraw_spec hcb hv pos
      have hW := weightDraw_spec hv pos
      exact ⟨hO.1, hO.2, hL.1, hH.1, hC.1, hC.2, hH.2, hL.2, hW.1, hW.2⟩
    · exact ih (nextFpos fo s fpos) (tw + weightDraw vals pos) (pos + 5) c hc

/-! ## Normalization lemmas, C9 and C4 -/

theorem pyDiv_ok_inv {a b v : ℚ} (h : pyDiv a b = Except.ok v) : v = a / b := by
  unfold pyDiv at h
  split at h
  · exact absurd h (by simp)
  · rw [Except.ok.injEq] at h
    exact h.symm

theorem normalizeWeights_ok {W : ℚ} (hW : W ≠ 0) (L : List Stock) :
    normalizeWeights L W =
      Except.ok (L.map (fun c => { c with weight := pyRound3 (c.weight / W) })) := by
  unfold normalizeWeights
  exact mapE_congr_ok (fun c _ => by rw [pyDiv_ok hW]; rfl)

theorem normalizeWeights_mem {W : ℚ} :
    ∀ {L cs : List Stock}, normalizeWeights L W = Except.ok cs →
      ∀ c2 ∈ cs, ∃ c ∈ L, c2 = { c with weight := pyRound3 (c.weight / W) } := by
  intro L
  induction L with
  | nil =>
    intro cs h c2 hc2
    rw [show normalizeWeights [] W = Except.ok [] from rfl, Except.ok.injEq] at h
    rw [← h] at hc2
    simp at hc2
  | cons c L ih =>
    intro cs h c2 hc2
    unfold normalizeWeights at h
    rw [mapE_cons] at h
    cases hd : pyDiv c.weight W with
    | error e =>
      rw [show (do
          let nw ← pyDiv c.weight W
          return { c with weight := pyRound3 nw } : Except String Stock) =
        Except.error e by rw [hd]; rfl] at h
      simp at h
    | ok nw =>
      rw [show (do
          let nw ← pyDiv c.weight W
          return { c with weight := pyRound3 nw } : Except String Stock) =
        Except.ok { c with weight := pyRound3 nw } by rw [hd]; rfl] at h
      cases hl : mapE (fun c => do
          let nw ← pyDiv c.weight W
          return { c with weight := pyRound3 nw }) L with
      | error e => rw [hl] at h; simp at h
      | ok ys =>
        rw [hl] at h
        simp only [Except.ok.injEq] at h
        rw [← h] at hc2
        rcases List.mem_cons.mp hc2 with rfl | hc2
        · exact ⟨c, List.mem_cons_self _ _, by rw [pyDiv_ok_inv hd]⟩
        · obtain ⟨c0, hc0, he⟩ := ih hl c2 hc2
          exact ⟨c0, List.mem_cons_of_mem _ hc0, he⟩

/-- C9: a zero count yields the empty sequence and no error: the
normalization loop iterates over no records, so the division by
`total_weight` (which is `0`) is never executed. -/
theorem C9_zero_count_is_safe (fo : FakerOracle) (seed : ℕ) (g : RandState) :
    generate_companies fo 0 seed g = Except.ok ([], ⟨g.vals, g.pos + 1⟩) := rfl

/-- C4 (amended): every generated record satisfies
`low ≤ open ≤ high`, `low ≤ close ≤ high`, `open ∈ [100, 1000]`, and the
per-batch circuit-breaker fraction `cb` is drawn once from `[0.10, 0.25]` and
bounds the price moves up to the half-cent slack of rounding prices to two
decimals: `high - open ≤ cb·open + 0.005` and `open - low ≤ cb·open + 0.005`
(hence also with `0.25` in place of `cb`). -/
theorem C4_price_invariants (fo : FakerOracle) (n s : ℕ) (g : RandState)
    (hv : ValidStream g.vals) {cs : List Stock} {g2 : RandState}
    (hgen : generate_companies fo n s g = Except.ok (cs, g2)) :
    ∃ cb : ℚ, 1/10 ≤ cb ∧ cb ≤ 1/4 ∧
      ∀ c ∈ cs,
        100 ≤ c.open_price ∧ c.open_price ≤ 1000 ∧
        c.low_price ≤ c.open_price ∧ c.open_price ≤ c.high_price ∧
        c.low_price ≤ c.close_price ∧ c.close_price ≤ c.high_price ∧
        c.high_price - c.open_price ≤ cb * c.open_price + 1/200 ∧
        c.open_price - c.low_price ≤ cb * c.open_price + 1/200 ∧
        c.high_price - c.open_price ≤ 1/4 * c.open_price + 1/200 ∧
        c.open_price - c.low_price ≤ 1/4 * c.open_price + 1/200 := by
  obtain ⟨vals, pos⟩ := g
  rw [generate_companies_eq] at hgen
  obtain ⟨hr0, hr1⟩ := hv pos
  have hcb1 : 1/10 ≤ 1/10 + (1/4 - 1/10) * vals pos := by nlinarith
  have hcb2 : 1/10 + (1/4 - 1/10) * vals pos ≤ 1/4 := by nlinarith
  have hcb0 : (0 : ℚ) ≤ 1/10 + (1/4 - 1/10) * vals pos := le_trans (by norm_num) hcb1
  refine ⟨1/10 + (1/4 - 1/10) * vals pos, hcb1, hcb2, ?_⟩
  intro c hc
  cases hnw : normalizeWeights
      (genLoop fo s (1/10 + (1/4 - 1/10) * vals pos) n 0 0 ⟨vals, pos + 1⟩).1
      (genLoop fo s (1/10 + (1/4 - 1/10) * vals pos) n 0 0 ⟨vals, pos + 1⟩).2.1 with
  | error e =>
    rw [hnw, error_bind] at hgen
    exact absurd hgen (by simp)
  | ok cs2 =>
    rw [hnw, ok_bind] at hgen
    have hcs : cs2 = cs := by
      injection hgen with h
      exact congrArg Prod.fst h
    obtain ⟨c0, hc0, rfl⟩ := normalizeWeights_mem hnw c (hcs ▸ hc)
    have hinv := genLoop_invariant fo s hcb0 (by exact hv) n 0 0 (pos + 1) c0 hc0
    have hopen0 : (0 : ℚ) ≤ c0.open_price := le_trans (by norm_num) hinv.1
    have hmul : (1/10 + (1/4 - 1/10) * vals pos) * c0.open_price ≤
        1/4 * c0.open_price := mul_le_mul_of_nonneg_right hcb2 hopen0
    exact ⟨hinv.1, hinv.2.1, hinv.2.2.1, hinv.2.2.2.1, hinv.2.2.2.2.1,
      hinv.2.2.2.2.2.1, hinv.2.2.2.2.2.2.1, hinv.2.2.2.2.2.2.2.1,
      by linarith [hinv.2.2.2.2.2.2.1], by linarith [hinv.2.2.2.2.2.2.2.1]⟩

/-! ## Symbolic evaluation of concrete generator runs

Rational arithmetic does not reduce definitionally (`Rat.normalize` is
defined by well-founded recursion), so concrete runs are evaluated through
rewriting: every rounded value is either an exact two-decimal grid point or
is resolved with an explicit floor computation. -/

theorem pyRound2_eval {q : ℚ} (k : ℤ) (h : q = (k : ℚ) / 100) :
    pyRound2 q = (k : ℚ) / 100 := by
  rw [h, pyRound2_fix]

theorem pyRound3_fix (k : ℤ) : pyRound3 ((k : ℚ) / 1000) = (k : ℚ) / 1000 := by
  unfold pyRound3
  rw [show ((k : ℚ) / 1000) * 1000 = (k : ℚ) by field_simp, bround_intCast]

theorem pyRound3_eval {q : ℚ} (k : ℤ) (h : q = (k : ℚ) / 1000) :
    pyRound3 q = (k : ℚ) / 1000 := by
  rw [h, pyRound3_fix]

theorem bround_eval_up {q : ℚ} {k : ℤ} (hfl : ⌊q⌋ = k) (hfr : 1/2 < q - k) :
    bround q = k + 1 := by
  unfold bround
  rw [hfl, if_neg (by linarith), if_pos hfr]

theorem bround_eval_down {q : ℚ} {k : ℤ} (hfl : ⌊q⌋ = k) (hfr : q - k < 1/2) :
    bround q = k := by
  unfold bround
  rw [hfl, if_pos hfr]

theorem pyRound2_eval_up {q : ℚ} (k : ℤ) (hfl : ⌊q * 100⌋ = k)
    (hfr : 1/2 < q * 100 - k) : pyRound2 q = ((k + 1 : ℤ) : ℚ) / 100 := by
  unfold pyRound2
  rw [bround_eval_up hfl hfr]

theorem pyRound2_eval_down {q : ℚ} (k : ℤ) (hfl : ⌊q * 100⌋ = k)
    (hfr : q * 100 - k < 1/2) : pyRound2 q = (k : ℚ) / 100 := by
  unfold pyRound2
  rw [bround_eval_down hfl hfr]

theorem pyRound3_eval_up {q : ℚ} (k : ℤ) (hfl : ⌊q * 1000⌋ = k)
    (hfr : 1/2 < q * 1000 - k) : pyRound3 q = ((k + 1 : ℤ) : ℚ) / 1000 := by
  unfold pyRound3
  rw [bround_eval_up hfl hfr]

theorem pyRound3_eval_down {q : ℚ} (k : ℤ) (hfl : ⌊q * 1000⌋ = k)
    (hfr : q * 1000 - k < 1/2) : pyRound3 q = (k : ℚ) / 1000 := by
  unfold pyRound3
  rw [bround_eval_down hfl hfr]

/-- A concrete Faker oracle: every company is named "ACME", every random
letter is Q. -/
def constOracle : FakerOracle := ⟨fun _ _ => "ACME", fun _ _ => 'Q'⟩

/-- The all-zero unit-draw stream (each `random.random()` returns `0`). -/
def zeroVals : ℕ → ℚ := fun _ => 0

theorem zeroVals_valid : ValidStream zeroVals := by
  intro i
  norm_num [zeroVals]

/-- The single record generated from the all-zero stream. -/
def zeroStock : Stock :=
  ⟨"ACME", derive_ticker "ACME" 'Q', 100, 100, 90, 90, 1⟩

theorem gen_one_zero_eval :
    generate_companies constOracle 1 42 ⟨zeroVals, 0⟩ =
      Except.ok ([zeroStock], ⟨zeroVals, 6⟩) := by
  rw [generate_companies_eq,
    show (1/10 : ℚ) + (1/4 - 1/10) * zeroVals 0 = 1/10 by norm_num [zeroVals],
    genLoop_succ_eq, genLoop_zero_eq]
  have hO : openDraw zeroVals 1 = 100 := by
    unfold openDraw
    rw [pyRound2_eval 10000 (by norm_num [zeroVals])]
    norm_num
  have hH : highDraw (1/10) zeroVals 1 = 100 := by
    unfold highDraw
    rw [hO, pyRound2_eval 10000 (by norm_num [zeroVals])]
    norm_num
  have hL : lowDraw (1/10) zeroVals 1 = 90 := by
    unfold lowDraw
    rw [hO, pyRound2_eval 9000 (by norm_num [zeroVals])]
    norm_num
  have hC : closeDraw (1/10) zeroVals 1 = 90 := by
    unfold closeDraw
    rw [hH, hL, pyRound2_eval 9000 (by norm_num [zeroVals])]
    norm_num
  have hW : weightDraw zeroVals 1 = 1/10 := by
    unfold weightDraw
    rw [pyRound2_eval 10 (by norm_num [zeroVals])]
    norm_num
  dsimp only [stepStock, nextFpos]
  rw [hO, hH, hL, hC, hW,
    show (0 : ℚ) + 1/10 = 1/10 by norm_num,
    normalizeWeights_ok (show (1/10 : ℚ) ≠ 0 by norm_num), ok_bind]
  simp only [List.map_cons, List.map_nil]
  dsimp only [constOracle]
  rw [show pyRound3 ((1/10 : ℚ) / (1/10)) = 1 by
    rw [pyRound3_eval 1000 (by norm_num)]; norm_num]
  norm_num [zeroStock]

/-- Witness for C4: the amended invariants at a concrete one-record run. -/
theorem C4_price_invariants_witness :
    ∃ cb : ℚ, 1/10 ≤ cb ∧ cb ≤ 1/4 ∧
      ∀ c ∈ [zeroStock],
        100 ≤ c.open_price ∧ c.open_price ≤ 1000 ∧
        c.low_price ≤ c.open_price ∧ c.open_price ≤ c.high_price ∧
        c.low_price ≤ c.close_price ∧ c.close_price ≤ c.high_price ∧
        c.high_price - c.open_price ≤ cb * c.open_price + 1/200 ∧
        c.open_price - c.low_price ≤ cb * c.open_price + 1/200 ∧
        c.high_price - c.open_price ≤ 1/4 * c.open_price + 1/200 ∧
        c.open_price - c.low_price ≤ 1/4 * c.open_price + 1/200 :=
  C4_price_invariants constOracle 1 42 ⟨zeroVals, 0⟩ zeroVals_valid gen_one_zero_eval

/-- A stream of unit draws under which rounding pushes `high` more than
`0.25 * open` above `open`: the circuit-breaker draw is just below `0.25`,
`open` is `100.03`, and the `high` draw lands at `125.0351`, which rounds to
`125.04 > 1.25 * 100.03 = 125.0375`.  Every draw lies in `[0, 1)`. -/
def c4vals : ℕ → ℚ := fun i =>
  if i = 0 then 7499/7500
  else if i = 1 then 1/30000
  else if i = 2 then 125025500/125027497
  else 0

theorem c4vals_valid : ValidStream c4vals := by
  intro i
  unfold c4vals
  split_ifs <;> norm_num

/-- The record generated from `c4vals`. -/
def c4stock : Stock :=
  ⟨"ACME", derive_ticker "ACME" 'Q', 10003/100, 12504/100, 7502/100, 7502/100, 1⟩

theorem gen_c4_eval :
    generate_companies constOracle 1 42 ⟨c4vals, 0⟩ =
      Except.ok ([c4stock], ⟨c4vals, 6⟩) := by
  rw [generate_companies_eq,
    show (1/10 : ℚ) + (1/4 - 1/10) * c4vals 0 = 12499/50000 by norm_num [c4vals],
    genLoop_succ_eq, genLoop_zero_eq]
  have hO : openDraw c4vals 1 = 10003/100 := by
    unfold openDraw
    rw [pyRound2_eval 10003 (by norm_num [c4vals])]
    norm_num
  have hH : highDraw (12499/50000) c4vals 1 = 12504/100 := by
    unfold highDraw
    rw [hO,
      show (10003/100 : ℚ) +
          (10003/100 + 12499/50000 * (10003/100) - 10003/100) * c4vals (1 + 1) =
        1250351/10000 by norm_num [c4vals],
      pyRound2_eval_up 12503 (by
        rw [show (1250351/10000 : ℚ) * 100 = 1250351/100 by norm_num,
          Int.floor_eq_iff]
        norm_num) (by norm_num)]
    norm_num
  have hL : lowDraw (12499/50000) c4vals 1 = 7502/100 := by
    unfold lowDraw
    rw [hO,
      show (10003/100 : ℚ) - 12499/50000 * (10003/100) +
          (10003/100 - (10003/100 - 12499/50000 * (10003/100))) * c4vals (1 + 2) =
        375122503/5000000 by norm_num [c4vals],
      pyRound2_eval_down 7502 (by
        rw [show (375122503/5000000 : ℚ) * 100 = 375122503/50000 by norm_num,
          Int.floor_eq_iff]
        norm_num) (by norm_num)]
    norm_num
  have hC : closeDraw (12499/50000) c4vals 1 = 7502/100 := by
    unfold closeDraw
    rw [hH, hL, pyRound2_eval 7502 (by norm_num [c4vals])]
    norm_num
  have hW : weightDraw c4vals 1 = 1/10 := by
    unfold weightDraw
    rw [pyRound2_eval 10 (by norm_num [c4vals])]
    norm_num
  dsimp only [stepStock, nextFpos]
  rw [hO, hH, hL, hC, hW,
    show (0 : ℚ) + 1/10 = 1/10 by norm_num,
    normalizeWeights_ok (show (1/10 : ℚ) ≠ 0 by norm_num), ok_bind]
  simp only [List.map_cons, List.map_nil]
  dsimp only [constOracle]
  rw [show pyRound3 ((1/10 : ℚ) / (1/10)) = 1 by
    rw [pyRound3_eval 1000 (by norm_num)]; norm_num]
  norm_num [c4stock]

/-- Counterexample to C4 as stated: on a valid stream of unit draws the
generated record has `high - open = 25.01 > 25.0075 = 0.25 * open` — the
two-decimal rounding of `high` can overshoot the circuit-breaker bound by up
to half a cent. -/
theorem C4_price_invariants_counterexample :
    ValidStream c4vals ∧
    generate_companies constOracle 1 42 ⟨c4vals, 0⟩ =
      Except.ok ([c4stock], ⟨c4vals, 6⟩) ∧
    ¬(c4stock.high_price - c4stock.open_price ≤ 1/4 * c4stock.open_price) :=
  ⟨c4vals_valid, gen_c4_eval, by norm_num [c4stock]⟩

/-! ## C2: what the seed does and does not determine -/

theorem le_sum_of_forall_le :
    ∀ (l : List ℚ) (a : ℚ), (∀ x ∈ l, a ≤ x) → a * l.length ≤ l.sum
  | [], a, _ => by simp
  | x :: xs, a, h => by
    have hx := h x (List.mem_cons_self _ _)
    have hxs := le_sum_of_forall_le xs a (fun y hy => h y (List.mem_cons_of_mem _ hy))
    simp only [List.length_cons, List.sum_cons]
    push_cast
    linarith

/-- On a valid stream and positive count, `generate_companies` succeeds and
returns the loop's records with weights normalized by the total. -/
theorem generate_companies_ok (fo : FakerOracle) (n s : ℕ) (vals : ℕ → ℚ)
    (pos : ℕ) (hv : ValidStream vals) (hn : 1 ≤ n) :
    generate_companies fo n s ⟨vals, pos⟩ =
      Except.ok
        ((genLoop fo s (1/10 + (1/4 - 1/10) * vals pos) n 0 0 ⟨vals, pos + 1⟩).1.map
          (fun c => { c with weight := pyRound3 (c.weight /
            (genLoop fo s (1/10 + (1/4 - 1/10) * vals pos) n 0 0 ⟨vals, pos + 1⟩).2.1) }),
         (genLoop fo s (1/10 + (1/4 - 1/10) * vals pos) n 0 0 ⟨vals, pos + 1⟩).2.2) := by
  obtain ⟨hr0, hr1⟩ := hv pos
  have hcb0 : (0 : ℚ) ≤ 1/10 + (1/4 - 1/10) * vals pos := by nlinarith
  have hwlb : ∀ x ∈ ((genLoop fo s (1/10 + (1/4 - 1/10) * vals pos) n 0 0
      ⟨vals, pos + 1⟩).1.map Stock.weight), 1/10 ≤ x := by
    intro x hx
    obtain ⟨c, hc, rfl⟩ := List.mem_map.mp hx
    exact (genLoop_invariant fo s hcb0 hv n 0 0 (pos + 1) c hc).2.2.2.2.2.2.2.2.1
  have hlen : ((genLoop fo s (1/10 + (1/4 - 1/10) * vals pos) n 0 0
      ⟨vals, pos + 1⟩).1.map Stock.weight).length = n := by
    rw [List.length_map, genLoop_length]
  have hsum := le_sum_of_forall_le _ _ hwlb
  rw [hlen] at hsum
  have hn1 : (1 : ℚ) ≤ (n : ℚ) := by exact_mod_cast hn
  have hWpos : 0 < (genLoop fo s (1/10 + (1/4 - 1/10) * vals pos) n 0 0
      ⟨vals, pos + 1⟩).2.1 := by
    rw [genLoop_total]
    nlinarith
  rw [generate_companies_eq, normalizeWeights_ok (ne_of_gt hWpos), ok_bind]

/-- C2 (amended): with identical seed and count, two calls of
`generate_companies` reproduce identical name and symbol sequences whatever
the state of the global `random` module, because `Faker.seed(random_seed)`
resets the Faker stream that names and ticker letters are drawn from; the
price and weight sequences are drawn from the global `random` module, which
the function never seeds, so they coincide only if that ambient state
coincides. -/
theorem C2_names_symbols_deterministic (fo : FakerOracle) (n s : ℕ)
    (g g' : RandState) (hv : ValidStream g.vals) (hv' : ValidStream g'.vals) :
    ∃ cs cs' g2 g2',
      generate_companies fo n s g = Except.ok (cs, g2) ∧
      generate_companies fo n s g' = Except.ok (cs', g2') ∧
      cs.map Stock.name = cs'.map Stock.name ∧
      cs.map Stock.symbol = cs'.map Stock.symbol := by
  obtain ⟨vals, pos⟩ := g
  obtain ⟨vals', pos'⟩ := g'
  cases n with
  | zero =>
    exact ⟨[], [], ⟨vals, pos + 1⟩, ⟨vals', pos' + 1⟩, rfl, rfl, rfl, rfl⟩
  | succ m =>
    refine ⟨_, _, _, _,
      generate_companies_ok fo (m + 1) s vals pos hv (by omega),
      generate_companies_ok fo (m + 1) s vals' pos' hv' (by omega), ?_, ?_⟩
    · rw [List.map_map, List.map_map]
      exact (genLoop_name_symbol fo s (1/10 + (1/4 - 1/10) * vals pos)
        (1/10 + (1/4 - 1/10) * vals' pos') (m + 1) 0 0 0 vals vals'
        (pos + 1) (pos' + 1)).1
    · rw [List.map_map, List.map_map]
      exact (genLoop_name_symbol fo s (1/10 + (1/4 - 1/10) * vals pos)
        (1/10 + (1/4 - 1/10) * vals' pos') (m + 1) 0 0 0 vals vals'
        (pos + 1) (pos' + 1)).2

/-- Witness for C2: two runs from different global random states. -/
theorem C2_names_symbols_deterministic_witness :
    ∃ cs cs' g2 g2',
      generate_companies constOracle 2 42 ⟨zeroVals, 0⟩ = Except.ok (cs, g2) ∧
      generate_companies constOracle 2 42 ⟨zeroVals, 11⟩ = Except.ok (cs', g2') ∧
      cs.map Stock.name = cs'.map Stock.name ∧
      cs.map Stock.symbol = cs'.map Stock.symbol :=
  C2_names_symbols_deterministic constOracle 2 42 ⟨zeroVals, 0⟩ ⟨zeroVals, 11⟩
    zeroVals_valid zeroVals_valid

/-- A stream on which the first call and the second (sequential) call of the
generator draw different opening prices: all unit draws are `0` except the
second call's `open` draw. -/
def c2vals : ℕ → ℚ := fun i => if i = 7 then 1/2 else 0

theorem c2vals_valid : ValidStream c2vals := by
  intro i
  unfold c2vals
  split_ifs <;> norm_num

/-- The record generated by the second sequential call on `c2vals`. -/
def c2stock : Stock :=
  ⟨"ACME", derive_ticker "ACME" 'Q', 550, 550, 495, 495, 1⟩

theorem gen_c2_first :
    generate_companies constOracle 1 42 ⟨c2vals, 0⟩ =
      Except.ok ([zeroStock], ⟨c2vals, 6⟩) := by
  rw [generate_companies_eq,
    show (1/10 : ℚ) + (1/4 - 1/10) * c2vals 0 = 1/10 by norm_num [c2vals],
    genLoop_succ_eq, genLoop_zero_eq]
  have hO : openDraw c2vals 1 = 100 := by
    unfold openDraw
    rw [pyRound2_eval 10000 (by norm_num [c2vals])]
    norm_num
  have hH : highDraw (1/10) c2vals 1 = 100 := by
    unfold highDraw
    rw [hO, pyRound2_eval 10000 (by norm_num [c2vals])]
    norm_num
  have hL : lowDraw (1/10) c2vals 1 = 90 := by
    unfold lowDraw
    rw [hO, pyRound2_eval 9000 (by norm_num [c2vals])]
    norm_num
  have hC : closeDraw (1/10) c2vals 1 = 90 := by
    unfold closeDraw
    rw [hH, hL, pyRound2_eval 9000 (by norm_num [c2vals])]
    norm_num
  have hW : weightDraw c2vals 1 = 1/10 := by
    unfold weightDraw
    rw [pyRound2_eval 10 (by norm_num [c2vals])]
    norm_num
  dsimp only [stepStock, nextFpos]
  rw [hO, hH, hL, hC, hW,
    show (0 : ℚ) + 1/10 = 1/10 by norm_num,
    normalizeWeights_ok (show (1/10 : ℚ) ≠ 0 by norm_num), ok_bind]
  simp only [List.map_cons, List.map_nil]
  dsimp only [constOracle]
  rw [show pyRound3 ((1/10 : ℚ) / (1/10)) = 1 by
    rw [pyRound3_eval 1000 (by norm_num)]; norm_num]
  norm_num [zeroStock]

theorem gen_c2_second :
    generate_companies constOracle 1 42 ⟨c2vals, 6⟩ =
      Except.ok ([c2stock], ⟨c2vals, 12⟩) := by
  rw [generate_companies_eq,
    show (1/10 : ℚ) + (1/4 - 1/10) * c2vals 6 = 1/10 by norm_num [c2vals],
    genLoop_succ_eq, genLoop_zero_eq]
  have hO : openDraw c2vals 7 = 550 := by
    unfold openDraw
    rw [pyRound2_eval 55000 (by norm_num [c2vals])]
    norm_num
  have hH : highDraw (1/10) c2vals 7 = 550 := by
    unfold highDraw
    rw [hO, pyRound2_eval 55000 (by norm_num [c2vals])]
    norm_num
  have hL : lowDraw (1/10) c2vals 7 = 495 := by
    unfold lowDraw
    rw [hO, pyRound2_eval 49500 (by norm_num [c2vals])]
    norm_num
  have hC : closeDraw (1/10) c2vals 7 = 495 := by
    unfold closeDraw
    rw [hH, hL, pyRound2_eval 49500 (by norm_num [c2vals])]
    norm_num
  have hW : weightDraw c2vals 7 = 1/10 := by
    unfold weightDraw
    rw [pyRound2_eval 10 (by norm_num [c2vals])]
    norm_num
  dsimp only [stepStock, nextFpos]
  rw [hO, hH, hL, hC, hW,
    show (0 : ℚ) + 1/10 = 1/10 by norm_num,
    normalizeWeights_ok (show (1/10 : ℚ) ≠ 0 by norm_num), ok_bind]
  simp only [List.map_cons, List.map_nil]
  dsimp only [constOracle]
  rw [show pyRound3 ((1/10 : ℚ) / (1/10)) = 1 by
    rw [pyRound3_eval 1000 (by norm_num)]; norm_num]
  norm_num [c2stock]

/-- Counterexample to C2 as stated: the second sequential call with the same
seed and count (global random state as the first call left it) reproduces
the same name sequence but a different open-price sequence (`100` vs `550`),
so the two calls do not produce identical output. -/
theorem C2_counterexample_second_call_differs :
    ValidStream c2vals ∧
    generate_companies constOracle 1 42 ⟨c2vals, 0⟩ =
      Except.ok ([zeroStock], ⟨c2vals, 6⟩) ∧
    generate_companies constOracle 1 42 ⟨c2vals, 6⟩ =
      Except.ok ([c2stock], ⟨c2vals, 12⟩) ∧
    [zeroStock].map Stock.name = [c2stock].map Stock.name ∧
    [zeroStock].map Stock.open_price ≠ [c2stock].map Stock.open_price :=
  ⟨c2vals_valid, gen_c2_first, gen_c2_second, rfl,
   by norm_num [zeroStock, c2stock]⟩

/-! ## C5: record count and normalized weights -/

theorem sum_map_div_const (l : List ℚ) (W : ℚ) :
    (l.map (fun x => x / W)).sum = l.sum / W := by
  induction l with
  | nil => simp
  | cons x xs ih => simp [ih, add_div]

theorem abs_sum_sub_sum_le {e : ℚ} (f h : Stock → ℚ) :
    ∀ l : List Stock, (∀ c ∈ l, |f c - h c| ≤ e) →
      |(l.map f).sum - (l.map h).sum| ≤ l.length * e
  | [], _ => by simp
  | x :: xs, hl => by
    have hx := hl x (List.mem_cons_self _ _)
    have hxs := abs_sum_sub_sum_le f h xs
      (fun y hy => hl y (List.mem_cons_of_mem _ hy))
    simp only [List.map_cons, List.sum_cons, List.length_cons]
    have heq : f x + (xs.map f).sum - (h x + (xs.map h).sum) =
        (f x - h x) + ((xs.map f).sum - (xs.map h).sum) := by ring
    rw [heq]
    calc |(f x - h x) + ((xs.map f).sum - (xs.map h).sum)| ≤
        |f x - h x| + |(xs.map f).sum - (xs.map h).sum| := abs_add _ _
      _ ≤ e + xs.length * e := add_le_add hx hxs
      _ = (xs.length + 1 : ℕ) * e := by push_cast; ring

/-- C5 (amended): for every count `n ≥ 1` and any seed and global random
state, the generator produces exactly `n` records, every weight is
nonnegative, and the weight sum deviates from `1` by at most `n * 0.0005`
(each of the `n` weights is rounded to 3 decimals after normalization, and
each rounding moves it by at most half a thousandth).  In particular the sum
is within the claimed `0.005` for `n ≤ 10`; for large counts neither the
`0.005` tolerance nor strict positivity of every weight survives. -/
theorem C5_count_and_weight_sum (fo : FakerOracle) (n s : ℕ) (g : RandState)
    (hv : ValidStream g.vals) (hn : 1 ≤ n) :
    ∃ cs g2, generate_companies fo n s g = Except.ok (cs, g2) ∧
      cs.length = n ∧
      (∀ c ∈ cs, 0 ≤ c.weight) ∧
      |(cs.map Stock.weight).sum - 1| ≤ (n : ℚ) / 2000 := by
  obtain ⟨vals, pos⟩ := g
  obtain ⟨hr0, hr1⟩ := hv pos
  have hcb0 : (0 : ℚ) ≤ 1/10 + (1/4 - 1/10) * vals pos := by nlinarith
  set cb : ℚ := 1/10 + (1/4 - 1/10) * vals pos with hcb
  set R := genLoop fo s cb n 0 0 ⟨vals, pos + 1⟩ with hR
  have hRlen : R.1.length = n := genLoop_length fo s cb n 0 0 ⟨vals, pos + 1⟩
  have hinv : ∀ c ∈ R.1, 1/10 ≤ c.weight := by
    intro c hc
    exact (genLoop_invariant fo s hcb0 hv n 0 0 (pos + 1) c hc).2.2.2.2.2.2.2.2.1
  have hwlb : ∀ x ∈ R.1.map Stock.weight, 1/10 ≤ x := by
    intro x hx
    obtain ⟨c, hc, rfl⟩ := List.mem_map.mp hx
    exact hinv c hc
  have hsum := le_sum_of_forall_le _ _ hwlb
  rw [List.length_map, hRlen] at hsum
  have hn1 : (1 : ℚ) ≤ (n : ℚ) := by exact_mod_cast hn
  have hWeq : R.2.1 = (R.1.map Stock.weight).sum := by
    rw [hR, genLoop_total]
    ring_nf
  have hWpos : 0 < R.2.1 := by
    rw [hWeq]
    nlinarith
  refine ⟨_, _, generate_companies_ok fo n s vals pos hv hn, ?_, ?_, ?_⟩
  · rw [List.length_map, ← hR, hRlen]
  · intro c hc
    rw [← hR] at hc
    obtain ⟨c0, hc0, rfl⟩ := List.mem_map.mp hc
    have h0 : (0 : ℚ) ≤ c0.weight := le_trans (by norm_num) (hinv c0 hc0)
    exact pyRound3_nonneg (div_nonneg h0 (le_of_lt hWpos))
  · rw [← hR, List.map_map]
    have hfun : (Stock.weight ∘ fun c : Stock =>
        { c with weight := pyRound3 (c.weight / R.2.1) }) =
      fun c : Stock => pyRound3 (c.weight / R.2.1) := rfl
    rw [hfun]
    have habs := abs_sum_sub_sum_le
      (fun c => pyRound3 (c.weight / R.2.1))
      (fun c => c.weight / R.2.1) R.1
      (fun c _ => abs_pyRound3_sub _)
    rw [hRlen] at habs
    have hone : (R.1.map (fun c => c.weight / R.2.1)).sum = 1 := by
      rw [show R.1.map (fun c => c.weight / R.2.1) =
          (R.1.map Stock.weight).map (fun x => x / R.2.1) from by
        rw [List.map_map]; rfl,
        sum_map_div_const, ← hWeq, div_self (ne_of_gt hWpos)]
    calc |(R.1.map (fun c => pyRound3 (c.weight / R.2.1))).sum - 1|
        = |(R.1.map (fun c => pyRound3 (c.weight / R.2.1))).sum -
            (R.1.map (fun c => c.weight / R.2.1)).sum| := by rw [hone]
      _ ≤ (n : ℚ) * (1/2000) := habs
      _ = (n : ℚ) / 2000 := by ring

/-- Witness for C5: the amended statement at a concrete one-record run. -/
theorem C5_count_and_weight_sum_witness :
    ∃ cs g2, generate_companies constOracle 1 42 ⟨zeroVals, 0⟩ =
        Except.ok (cs, g2) ∧
      cs.length = 1 ∧
      (∀ c ∈ cs, 0 ≤ c.weight) ∧
      |(cs.map Stock.weight).sum - 1| ≤ ((1 : ℕ) : ℚ) / 2000 :=
  C5_count_and_weight_sum constOracle 1 42 ⟨zeroVals, 0⟩ zeroVals_valid le_rfl

/-! ## The 203-record run refuting the original C5 tolerances

202 raw weights of `0.99` and one of `0.10` give `total_weight = 200.08`.
Each large weight normalizes to `0.99 / 200.08 ≈ 0.004948`, which rounds to
three decimals as `0.005`, and the small one to `0.0004998`, which rounds to
`0.000`: the normalized weights sum to `202 * 0.005 = 1.01`, a full cent off,
and one weight is exactly zero. -/

def c5vals : ℕ → ℚ := fun i =>
  if i % 5 = 0 ∧ i ≠ 0 then (if i = 1015 then 0 else 89/90) else 0

theorem c5vals_valid : ValidStream c5vals := by
  intro i
  unfold c5vals
  split_ifs <;> norm_num

theorem c5vals_zero {j : ℕ} (h : j % 5 ≠ 0) : c5vals j = 0 := by
  unfold c5vals
  rw [if_neg (by tauto)]

theorem c5vals_big {j : ℕ} (h1 : j % 5 = 0) (h2 : j ≠ 0) (h3 : j ≠ 1015) :
    c5vals j = 89/90 := by
  unfold c5vals
  rw [if_pos ⟨h1, h2⟩, if_neg h3]

theorem c5vals_last : c5vals 1015 = 0 := by
  unfold c5vals
  rw [if_pos (by omega), if_pos rfl]

/-- A record with unnormalized weight `0.99`. -/
def c5big : Stock := ⟨"ACME", derive_ticker "ACME" 'Q', 100, 100, 90, 90, 99/100⟩

/-- The record with unnormalized weight `0.10`. -/
def c5small : Stock := ⟨"ACME", derive_ticker "ACME" 'Q', 100, 100, 90, 90, 1/10⟩

theorem c5price_draws {pos : ℕ} (h0 : c5vals pos = 0) (h1 : c5vals (pos + 1) = 0)
    (h2 : c5vals (pos + 2) = 0) (h3 : c5vals (pos + 3) = 0) :
    openDraw c5vals pos = 100 ∧ highDraw (1/10) c5vals pos = 100 ∧
    lowDraw (1/10) c5vals pos = 90 ∧ closeDraw (1/10) c5vals pos = 90 := by
  have hO : openDraw c5vals pos = 100 := by
    unfold openDraw
    rw [h0, pyRound2_eval 10000 (by norm_num)]
    norm_num
  have hH : highDraw (1/10) c5vals pos = 100 := by
    unfold highDraw
    rw [hO, h1, pyRound2_eval 10000 (by norm_num)]
    norm_num
  have hL : lowDraw (1/10) c5vals pos = 90 := by
    unfold lowDraw
    rw [hO, h2, pyRound2_eval 9000 (by norm_num)]
    norm_num
  have hC : closeDraw (1/10) c5vals pos = 90 := by
    unfold closeDraw
    rw [hH, hL, h3, pyRound2_eval 9000 (by norm_num)]
    norm_num
  exact ⟨hO, hH, hL, hC⟩

theorem c5step_big {fpos pos : ℕ} (h0 : c5vals pos = 0) (h1 : c5vals (pos + 1) = 0)
    (h2 : c5vals (pos + 2) = 0) (h3 : c5vals (pos + 3) = 0)
    (h4 : c5vals (pos + 4) = 89/90) :
    stepStock constOracle 7 (1/10) fpos c5vals pos = c5big := by
  obtain ⟨hO, hH, hL, hC⟩ := c5price_draws h0 h1 h2 h3
  have hW : weightDraw c5vals pos = 99/100 := by
    unfold weightDraw
    rw [h4, pyRound2_eval 99 (by norm_num)]
    norm_num
  unfold stepStock
  dsimp only [constOracle]
  rw [hO, hH, hL, hC, hW]
  rfl

theorem c5step_small {fpos pos : ℕ} (h0 : c5vals pos = 0) (h1 : c5vals (pos + 1) = 0)
    (h2 : c5vals (pos + 2) = 0) (h3 : c5vals (pos + 3) = 0)
    (h4 : c5vals (pos + 4) = 0) :
    stepStock constOracle 7 (1/10) fpos c5vals pos = c5small := by
  obtain ⟨hO, hH, hL, hC⟩ := c5price_draws h0 h1 h2 h3
  have hW : weightDraw c5vals pos = 1/10 := by
    unfold weightDraw
    rw [h4, pyRound2_eval 10 (by norm_num)]
    norm_num
  unfold stepStock
  dsimp only [constOracle]
  rw [hO, hH, hL, hC, hW]
  rfl

theorem c5loop : ∀ k : ℕ, k ≤ 202 → ∀ (fpos : ℕ) (tw : ℚ),
    genLoop constOracle 7 (1/10) (k + 1) fpos tw ⟨c5vals, 1 + 5 * (202 - k)⟩ =
      (List.replicate k c5big ++ [c5small],
       tw + (k : ℚ) * (99/100) + 1/10, ⟨c5vals, 1016⟩) := by
  intro k
  induction k with
  | zero =>
    intro _ fpos tw
    rw [show 1 + 5 * (202 - 0) = 1011 by norm_num, genLoop_succ_eq, genLoop_zero_eq,
      @c5step_small fpos 1011 (c5vals_zero (by norm_num))
        (c5vals_zero (by norm_num)) (c5vals_zero (by norm_num))
        (c5vals_zero (by norm_num)) (by rw [show 1011 + 4 = 1015 from rfl, c5vals_last]),
      show weightDraw c5vals 1011 = 1/10 by
        unfold weightDraw
        rw [show (1011 : ℕ) + 4 = 1015 from rfl, c5vals_last,
          pyRound2_eval 10 (by norm_num)]
        norm_num]
    norm_num
  | succ k ih =>
    intro hk fpos tw
    have hk2 : k ≤ 202 := by omega
    have hpos : 1 + 5 * (202 - (k + 1)) + 5 = 1 + 5 * (202 - k) := by omega
    have hw4 : c5vals (1 + 5 * (202 - (k + 1)) + 4) = 89/90 :=
      c5vals_big (by omega) (by omega) (by omega)
    rw [genLoop_succ_eq,
      c5step_big (c5vals_zero (by omega)) (c5vals_zero (by omega))
        (c5vals_zero (by omega)) (c5vals_zero (by omega)) hw4,
      show weightDraw c5vals (1 + 5 * (202 - (k + 1))) = 99/100 by
        unfold weightDraw
        rw [hw4, pyRound2_eval 99 (by norm_num)]
        norm_num,
      hpos, ih hk2]
    rw [show List.replicate (k + 1) c5big ++ [c5small] =
      c5big :: (List.replicate k c5big ++ [c5small]) from rfl]
    push_cast
    rw [show tw + 99/100 + (k : ℚ) * (99/100) + 1/10 =
      tw + ((k : ℚ) + 1) * (99/100) + 1/10 by ring]

/-- The record `c5big` after weight normalization: `round(0.99 / 200.08, 3) = 0.005`. -/
def c5bigN : Stock := ⟨"ACME", derive_ticker "ACME" 'Q', 100, 100, 90, 90, 1/200⟩

/-- The record `c5small` after weight normalization: `round(0.10 / 200.08, 3) = 0.0`. -/
def c5smallN : Stock := ⟨"ACME", derive_ticker "ACME" 'Q', 100, 100, 90, 90, 0⟩

theorem gen_c5_eval :
    generate_companies constOracle 203 7 ⟨c5vals, 0⟩ =
      Except.ok (List.replicate 202 c5bigN ++ [c5smallN], ⟨c5vals, 1016⟩) := by
  rw [generate_companies_eq,
    show (1/10 : ℚ) + (1/4 - 1/10) * c5vals 0 = 1/10 by norm_num [c5vals],
    show (0 : ℕ) + 1 = 1 + 5 * (202 - 202) by norm_num,
    show (203 : ℕ) = 202 + 1 from rfl,
    c5loop 202 (by norm_num)]
  dsimp only
  rw [show (0 : ℚ) + ((202 : ℕ) : ℚ) * (99/100) + 1/10 = 5002/25 by norm_num,
    normalizeWeights_ok (show (5002/25 : ℚ) ≠ 0 by norm_num), ok_bind]
  have hbw : pyRound3 (c5big.weight / (5002/25)) = 1/200 := by
    rw [show c5big.weight / (5002/25 : ℚ) = 99/20008 by norm_num [c5big],
      pyRound3_eval_up 4 (by
        rw [show (99/20008 : ℚ) * 1000 = 12375/2501 by norm_num, Int.floor_eq_iff]
        norm_num) (by norm_num)]
    norm_num
  have hsw : pyRound3 (c5small.weight / (5002/25)) = 0 := by
    rw [show c5small.weight / (5002/25 : ℚ) = 5/10004 by norm_num [c5small],
      pyRound3_eval_down 0 (by
        rw [show (5/10004 : ℚ) * 1000 = 1250/2501 by norm_num, Int.floor_eq_iff]
        norm_num) (by norm_num)]
    norm_num
  simp only [List.map_append, List.map_replicate, List.map_cons, List.map_nil]
  rw [hbw, hsw]
  rfl

/-- Counterexample to C5 as stated: a valid 203-draw configuration in which
the generator returns exactly 203 records whose normalized weights sum to
`1.01` (outside the `0.005` tolerance) and one of which has weight exactly
`0` (not strictly positive). -/
theorem C5_counterexample_weight_sum :
    ValidStream c5vals ∧
    generate_companies constOracle 203 7 ⟨c5vals, 0⟩ =
      Except.ok (List.replicate 202 c5bigN ++ [c5smallN], ⟨c5vals, 1016⟩) ∧
    (List.replicate 202 c5bigN ++ [c5smallN]).length = 203 ∧
    ((List.replicate 202 c5bigN ++ [c5smallN]).map Stock.weight).sum = 101/100 ∧
    ¬(|((List.replicate 202 c5bigN ++ [c5smallN]).map Stock.weight).sum - 1| ≤ 1/200) ∧
    c5smallN ∈ List.replicate 202 c5bigN ++ [c5smallN] ∧
    ¬(0 < c5smallN.weight) := by
  have hsum : ((List.replicate 202 c5bigN ++ [c5smallN]).map Stock.weight).sum =
      101/100 := by
    simp only [List.map_append, List.map_replicate, List.map_cons, List.map_nil,
      List.sum_append, List.sum_replicate, List.sum_cons, List.sum_nil, smul_eq_mul]
    norm_num [c5bigN, c5smallN]
  refine ⟨c5vals_valid, gen_c5_eval, ?_, hsum, ?_, ?_, by norm_num [c5smallN]⟩
  · simp only [List.length_append, List.length_replicate, List.length_cons,
      List.length_nil]
  · rw [hsum,
      show |(101 : ℚ)/100 - 1| = 1/100 by
        rw [show (101 : ℚ)/100 - 1 = 1/100 by norm_num]
        exact abs_of_nonneg (by norm_num)]
    norm_num
  · exact List.mem_append_right _ (List.mem_singleton.mpr rfl)

end NamedTuples
